import Mathlib

/-!
Verification of the zone-based stretching core (`src/core/dxf_processor.py`)
and the reference-matching / width-check analysis (`src/core/base_analyzer.py`)
of the dxfStretcher repository.

Coordinates are modelled as exact rationals; the Python float literals 1e-6
and 1e-9 become the exact rationals `eps6` and `eps9`.  Entity bounding boxes
are modelled for the entity kinds whose bounds are rationally expressible
(lines, straight polylines, circles, points); trigonometric bounds (arcs,
splines, opaque kinds) are outside the rational model and yield `none`.
-/

namespace DxfStretcher

/-- The Python literal 1e-9 (interval-membership tolerance of `_map_value`,
delta threshold of `_build_mapping`). -/
def eps9 : ℚ := 1 / 1000000000

/-- The Python literal 1e-6 (geometric shift threshold, bulge threshold). -/
def eps6 : ℚ := 1 / 1000000

/-- The active axis, the string "X" or "Y" in the source. -/
inductive Axis
  | X
  | Y
deriving DecidableEq, Repr

/-- A 3D point; the source keeps Z but never modifies it. -/
structure Pt where
  x : ℚ
  y : ℚ
  z : ℚ
deriving DecidableEq, Repr

def Pt.get (a : Axis) (p : Pt) : ℚ :=
  match a with
  | .X => p.x
  | .Y => p.y

def Pt.set (a : Axis) (v : ℚ) (p : Pt) : Pt :=
  match a with
  | .X => { p with x := v }
  | .Y => { p with y := v }

/-- A polyline vertex: coordinates, bulge, and an `ok` flag modelling whether
its DXF attributes can be read/written.  A malformed vertex raises
`AttributeError` in the source; `ok = false` models that. -/
structure PVertex where
  x : ℚ
  y : ℚ
  bulge : ℚ
  ok : Bool
deriving DecidableEq, Repr

def PVertex.get (a : Axis) (v : PVertex) : ℚ :=
  match a with
  | .X => v.x
  | .Y => v.y

def PVertex.set (a : Axis) (c : ℚ) (v : PVertex) : PVertex :=
  match a with
  | .X => { v with x := c }
  | .Y => { v with y := c }

/-- The entity kinds handled by `DxfProcessor` (LINE, LWPOLYLINE/POLYLINE,
SPLINE with control and fit points, CIRCLE, ARC, POINT, and any other kind,
represented by a reference position that a translation moves). -/
inductive Entity
  | line (s e : Pt)
  | polyline (vs : List PVertex)
  | spline (ctrl fit : List Pt)
  | circle (c : Pt) (r : ℚ)
  | arc (c : Pt) (r sa ea : ℚ)
  | point (p : Pt)
  | other (pos : Pt)
deriving DecidableEq, Repr

/-- The bulge scan of `_is_fixed_entity`: Python's
`any(abs(vertex.dxf.bulge) > 1e-6 for vertex in entity.vertices())` inside a
`try`.  Reading a malformed vertex raises `AttributeError`, which is caught
and makes the entity count as not fixed; a large bulge found before any
malformed vertex makes it fixed. -/
def polyHasBulge : List PVertex → Bool
  | [] => false
  | v :: rest =>
    if !v.ok then false
    else if eps6 < |v.bulge| then true
    else polyHasBulge rest

/-- `_is_fixed_entity`: CIRCLE, ARC, ELLIPSE, SPLINE are fixed; a polyline is
fixed when the bulge scan succeeds. -/
def isFixedEntity : Entity → Bool
  | .circle _ _ => true
  | .arc _ _ _ _ => true
  | .spline _ _ => true
  | .polyline vs => polyHasBulge vs
  | _ => false

/-- Bounding interval of the straight-vertex hull of a polyline.  Only exact
when every vertex is readable and straight (bulge 0); otherwise the bounds
involve arc geometry outside the rational model and the result is `none`. -/
def polyInterval (a : Axis) (vs : List PVertex) : Option (ℚ × ℚ) :=
  if vs.all (fun v => v.ok && decide (v.bulge = 0)) then
    match vs with
    | [] => none
    | v :: rest =>
      some (rest.foldl (fun pr w => (min pr.1 (w.get a), max pr.2 (w.get a)))
        (v.get a, v.get a))
  else none

/-- `_entity_interval`, modelling `bbox.extents([entity])` on one axis.
Bounds of arcs, splines and opaque kinds are trigonometric or unknown and are
modelled as `none`; theorems about extents quantify over drawings that avoid
them. -/
def entityInterval (a : Axis) : Entity → Option (ℚ × ℚ)
  | .line s e => some (min (s.get a) (e.get a), max (s.get a) (e.get a))
  | .polyline vs => polyInterval a vs
  | .circle c r => some (c.get a - r, c.get a + r)
  | .point p => some (p.get a, p.get a)
  | .spline _ _ => none
  | .arc _ _ _ _ => none
  | .other _ => none

def ivUnion (p q : ℚ × ℚ) : ℚ × ℚ := (min p.1 q.1, max p.2 q.2)

/-- Drawing extents on one axis, modelling `bbox.extents(msp)`: the union of
the per-entity bounds, `none` when no entity yields bounds. -/
def drawingExtents (a : Axis) (d : List Entity) : Option (ℚ × ℚ) :=
  match d.filterMap (entityInterval a) with
  | [] => none
  | iv :: rest => some (rest.foldl ivUnion iv)

/-- Zone tag: 'stretch' or 'fixed'. -/
inductive ZoneType
  | stretch
  | fixed
deriving DecidableEq, Repr

/-- The string comparison `zone_type == "stretch"`. -/
def ZoneType.isStretch : ZoneType → Bool
  | .stretch => true
  | .fixed => false

/-- The string comparison `zone_type == "fixed"`. -/
def ZoneType.isFixed : ZoneType → Bool
  | .stretch => false
  | .fixed => true

/-- `DxfProcessor.Zone`. -/
structure Zone where
  start_old : ℚ
  end_old : ℚ
  zone_type : ZoneType
deriving DecidableEq, Repr

/-- `Zone.length`: `max(0.0, end_old - start_old)`. -/
def Zone.length (z : Zone) : ℚ := max 0 (z.end_old - z.start_old)

/-- `DxfProcessor.MappingSegment` (a Zone plus its new-domain interval). -/
structure MappingSegment where
  start_old : ℚ
  end_old : ℚ
  zone_type : ZoneType
  start_new : ℚ
  end_new : ℚ
deriving DecidableEq, Repr

def MappingSegment.length (s : MappingSegment) : ℚ := max 0 (s.end_old - s.start_old)

/-- `MappingSegment.length_new`: `max(0.0, end_new - start_new)`. -/
def MappingSegment.length_new (s : MappingSegment) : ℚ := max 0 (s.end_new - s.start_new)

/-- The clipping step of `_get_zones`: clamp each fixed interval to the axis
range and keep it only when end > start. -/
def clipIntervals (lo hi : ℚ) (ivs : List (ℚ × ℚ)) : List (ℚ × ℚ) :=
  (ivs.map (fun p => (max lo p.1, min hi p.2))).filter (fun p => p.1 < p.2)

/-- `intervals.sort(key=lambda x: x[0])`: a stable sort by interval start
(insertion sort gives the same result as Python's stable sort). -/
def sortIntervals (ivs : List (ℚ × ℚ)) : List (ℚ × ℚ) :=
  ivs.insertionSort (fun p q => p.1 ≤ q.1)

/-- One step of the merge loop of `_get_zones`: the accumulator is the merged
list in reverse, so its head is `merged[-1]`; an interval starting strictly
after the head's end is appended, otherwise it extends the head. -/
def mergeStep (acc : List (ℚ × ℚ)) (p : ℚ × ℚ) : List (ℚ × ℚ) :=
  match acc with
  | [] => [p]
  | q :: qs => if q.2 < p.1 then p :: q :: qs else (q.1, max q.2 p.2) :: qs

/-- The merge loop of `_get_zones`. -/
def mergeIntervals (l : List (ℚ × ℚ)) : List (ℚ × ℚ) :=
  (l.foldl mergeStep []).reverse

/-- The zone walk of `_get_zones`: emit a stretch zone for each gap before,
between, or after the merged fixed intervals; `cursor` is the covered end. -/
def zonesWalk (hi : ℚ) : ℚ → List (ℚ × ℚ) → List Zone
  | cursor, [] => if cursor < hi then [⟨cursor, hi, .stretch⟩] else []
  | cursor, (s, e) :: rest =>
    (if cursor < s then [⟨cursor, s, .stretch⟩] else []) ++
      ⟨s, e, .fixed⟩ :: zonesWalk hi (max cursor e) rest

/-- `_get_zones`: clamp the range, clip/sort/merge the fixed intervals, walk
the gaps; an empty result falls back to one full-range stretch zone. -/
def getZones (lo hi : ℚ) (ivs : List (ℚ × ℚ)) : List Zone :=
  let hi2 := if hi < lo then lo else hi
  let zs := zonesWalk hi2 lo (mergeIntervals (sortIntervals (clipIntervals lo hi2 ivs)))
  if zs.isEmpty then [⟨lo, hi2, .stretch⟩] else zs

/-- The fixed-interval collection of `_get_zones`: the raw (unclipped) bounds
of the fixed entities, skipping those without bounds. -/
def fixedIntervalsRaw (a : Axis) (d : List Entity) : List (ℚ × ℚ) :=
  (d.filter (fun e => isFixedEntity e)).filterMap (entityInterval a)

/-- Failure modes of the stretching pipeline. -/
inductive StretchError
  | noElasticRegion
  | degenerateAxis
  | noExtents
deriving DecidableEq, Repr

/-- `sum(zone.length for zone in zones if zone.zone_type == "stretch")`. -/
def stretchTotal (zs : List Zone) : ℚ :=
  ((zs.filter (fun z => z.zone_type.isStretch)).map Zone.length).sum

/-- Total length of the fixed zones (helper for statements). -/
def fixedTotal (zs : List Zone) : ℚ :=
  ((zs.filter (fun z => z.zone_type.isFixed)).map Zone.length).sum

/-- The new length `_build_mapping` gives one zone. -/
def newLen (st delta : ℚ) (z : Zone) : ℚ :=
  if z.zone_type = ZoneType.stretch ∧ 0 < st then z.length + delta * (z.length / st)
  else z.length

/-- The accumulation loop of `_build_mapping` (`current_new` starts at
`axis_min`). -/
def buildSegs (st delta : ℚ) : List Zone → ℚ → List MappingSegment
  | [], _ => []
  | z :: rest, cur =>
    ⟨z.start_old, z.end_old, z.zone_type, cur, cur + newLen st delta z⟩ ::
      buildSegs st delta rest (cur + newLen st delta z)

/-- `_build_mapping`: fails with NoElasticRegion when `|delta| > 1e-9` and the
total stretch length is ≤ 0, otherwise builds the segments. -/
def buildMapping (lo hi target : ℚ) (zones : List Zone) :
    Except StretchError (List MappingSegment) :=
  let delta := target - (hi - lo)
  let st := stretchTotal zones
  if eps9 < |delta| ∧ st ≤ 0 then .error .noElasticRegion
  else .ok (buildSegs st delta zones lo)

/-- The segment evaluation of `_map_value` once a segment is selected:
degenerate old interval (< 1e-9) means constant offset, otherwise linear
interpolation. -/
def segEval (s : MappingSegment) (v : ℚ) : ℚ :=
  if s.length < eps9 then v + (s.start_new - s.start_old)
  else s.start_new + (v - s.start_old) / s.length * s.length_new

/-- The scan loop of `_map_value`; `last?` is `mapping[-1]`, used for the
fall-through extrapolation.  The source indexes `mapping[-1]` unconditionally,
presupposing a non-empty mapping (the pipeline always builds at least one
segment); the unreachable empty case is given the identity. -/
def mapValueAux (last? : Option MappingSegment) : List MappingSegment → ℚ → ℚ
  | [], v =>
    match last? with
    | some s => v + (s.end_new - s.end_old)
    | none => v
  | s :: rest, v =>
    if v < s.start_old - eps9 then mapValueAux last? rest v
    else if v ≤ s.end_old + eps9 then segEval s v
    else mapValueAux last? rest v

/-- `_map_value`. -/
def mapValue (m : List MappingSegment) (v : ℚ) : ℚ :=
  mapValueAux m.getLast? m v

/-- Remap one coordinate of a point (`(self._map_value(p.x), p.y, p.z)` and
the Y analogue). -/
def mapPt (m : List MappingSegment) (a : Axis) (p : Pt) : Pt :=
  p.set a (mapValue m (p.get a))

/-- `_map_polyline`: vertices are remapped in place, left to right.  The first
malformed vertex raises, leaving it and every later vertex untouched; the
exception is caught by `_apply_mapping`, which keeps the partial result. -/
def mapVerts (m : List MappingSegment) (a : Axis) : List PVertex → List PVertex
  | [] => []
  | v :: rest =>
    if v.ok then v.set a (mapValue m (v.get a)) :: mapVerts m a rest
    else v :: rest

/-- `_map_generic`: translate by the first segment's offset
(`mapping[0].start_new - mapping[0].start_old`); the source indexes
`mapping[0]`, presupposing non-emptiness, and the unreachable empty case is
given offset 0. -/
def mapGeneric (m : List MappingSegment) (a : Axis) (p : Pt) : Pt :=
  let off :=
    match m.head? with
    | some s => s.start_new - s.start_old
    | none => 0
  p.set a (p.get a + off)

/-- The per-entity dispatch of `_apply_mapping`, including its
catch-and-continue: the only modelled failure is a malformed polyline vertex,
whose effect is the partial in-place update of `mapVerts`. -/
def mapEntity (m : List MappingSegment) (a : Axis) : Entity → Entity
  | .line s e => .line (mapPt m a s) (mapPt m a e)
  | .polyline vs => .polyline (mapVerts m a vs)
  | .spline ctrl fit => .spline (ctrl.map (mapPt m a)) (fit.map (mapPt m a))
  | .circle c r => .circle (mapPt m a c) r
  | .arc c r sa ea => .arc (mapPt m a c) r sa ea
  | .point p => .point (mapPt m a p)
  | .other p => .other (mapGeneric m a p)

/-- `_apply_mapping` over the modelspace. -/
def applyMapping (m : List MappingSegment) (a : Axis) (d : List Entity) : List Entity :=
  d.map (mapEntity m a)

/-- The anchor strings the source recognizes ('center'; 'end', 'top', 'right';
anything else meaning 'start'). -/
inductive Anchor
  | start
  | center
  | atEnd
  | top
  | right
deriving DecidableEq, Repr

/-- The anchor coordinate in the old domain (`_apply_anchor_shift`). -/
def anchorValue (lo hi : ℚ) : Anchor → ℚ
  | .center => (lo + hi) / 2
  | .atEnd => hi
  | .top => hi
  | .right => hi
  | .start => lo

def translatePt (a : Axis) (t : ℚ) (p : Pt) : Pt := p.set a (p.get a + t)

/-- `entity.transform(Matrix44.translate(..))`: total except on a polyline
containing a malformed vertex, where the transform raises (`none`) and the
caller keeps the entity unchanged. -/
def translateEntityQ (a : Axis) (t : ℚ) : Entity → Option Entity
  | .polyline vs =>
    if vs.all (fun v => v.ok) then
      some (.polyline (vs.map (fun v => v.set a (v.get a + t))))
    else none
  | .line s e => some (.line (translatePt a t s) (translatePt a t e))
  | .spline ctrl fit => some (.spline (ctrl.map (translatePt a t)) (fit.map (translatePt a t)))
  | .circle c r => some (.circle (translatePt a t c) r)
  | .arc c r sa ea => some (.arc (translatePt a t c) r sa ea)
  | .point p => some (.point (translatePt a t p))
  | .other p => some (.other (translatePt a t p))

/-- `_apply_anchor_shift`: map the anchor value, skip when the shift is below
1e-6, otherwise translate every entity (keeping one whose transform fails).
`lo`/`hi` are the extents of the drawing as loaded, as in the source (the
processor's cached extents are not recomputed during `stretch`). -/
def applyAnchorShift (m : List MappingSegment) (a : Axis) (anc : Anchor) (lo hi : ℚ)
    (d : List Entity) : List Entity :=
  let av := anchorValue lo hi anc
  let shift := av - mapValue m av
  if |shift| < eps6 then d
  else d.map (fun e => (translateEntityQ a shift e).getD e)

/-- The geometric part of `DxfProcessor.stretch` on a loaded drawing: extents,
degenerate-size check, early return on equal size, zones, mapping, per-entity
transform, anchor shift (saving the file is out of scope). -/
def stretchDrawing (d : List Entity) (target : ℚ) (a : Axis) (anc : Anchor) :
    Except StretchError (List Entity) :=
  match drawingExtents a d with
  | none => .error .noExtents
  | some (lo, hi) =>
    if hi - lo = 0 then .error .degenerateAxis
    else if hi - lo = target then .ok d
    else
      match buildMapping lo hi target (getZones lo hi (fixedIntervalsRaw a d)) with
      | .error err => .error err
      | .ok m => .ok (applyAnchorShift m a anc lo hi (applyMapping m a d))

/-! ### The reference-matching analysis (`base_analyzer.py`) -/

/-- One arc of a reference drawing, as read by `_extract_arc_info`: radius,
center, start/end angle in degrees.  The Python record also stores the
computed float `arc_length`; with exact reals this scalar is a multiple of π,
so the model keeps the raw data and derives the length (`ArcInfo.arcLenPi`),
matching the record plus derived-accessor reading of the design. -/
structure ArcInfo where
  radius : ℚ
  center : ℚ × ℚ
  start_angle : ℚ
  end_angle : ℚ
deriving DecidableEq, Repr

/-- The normalized angular span in degrees: `_extract_arc_info` adds 2π when
`end_rad < start_rad`; the comparison is performed in radians there, and
`x ↦ x·π/180` is strictly monotone, so the degree comparison selects the same
branch (`arcLenPi_spec` states the radian form literally). -/
def ArcInfo.spanDeg (i : ArcInfo) : ℚ :=
  (if i.end_angle < i.start_angle then i.end_angle + 360 else i.end_angle) - i.start_angle

/-- The arc length divided by π: `arc_length = radius × span_in_radians`
  becomes `arc_length = arcLenPi × π` with `arcLenPi = radius·spanDeg/180`. -/
def ArcInfo.arcLenPi (i : ArcInfo) : ℚ := i.radius * i.spanDeg / 180

/-- `BaseInfo`: one reference drawing's two retained arcs, `arc1` outer
(larger radius), `arc2` inner (smaller radius); the file path is outside the
geometric model. -/
structure BaseInfo where
  korpus_number : String
  arc1 : ArcInfo
  arc2 : ArcInfo
deriving DecidableEq, Repr

/-- Lowercasing of the Cyrillic letters relevant to the two filename patterns
(`re.IGNORECASE` over `корп` and `Г`). -/
def lowerRu (c : Char) : Char :=
  if c = 'К' then 'к'
  else if c = 'О' then 'о'
  else if c = 'Р' then 'р'
  else if c = 'П' then 'п'
  else if c = 'Г' then 'г'
  else c

def takeDigits (cs : List Char) : List Char := cs.takeWhile Char.isDigit

/-- Leftmost match of the pattern `корп(\d+)` over a lowered character list
(`re.search(r'корп(\d+)', filename, re.IGNORECASE)`): on a failed partial
match the search resumes at the next position, as a regex engine does. -/
def findKorp : List Char → Option (List Char)
  | [] => none
  | c :: rest =>
    if c = 'к' then
      match rest with
      | 'о' :: 'р' :: 'п' :: r2 =>
        let ds := takeDigits r2
        if ds.isEmpty then findKorp rest else some ds
      | _ => findKorp rest
    else findKorp rest

/-- The tail `\d*\.?(\d+)` of the fallback pattern `Г\d*\.?(\d+)` at a fixed
position, with Python's greedy backtracking: the capture is the digits after
an optional dot when present and non-empty, otherwise the last digit of the
leading run (the greedy `\d*` gives one digit back), otherwise no match. -/
def gMatchAt (cs : List Char) : Option (List Char) :=
  let ds := takeDigits cs
  let rest := cs.drop ds.length
  match rest with
  | '.' :: r2 =>
    let d2 := takeDigits r2
    if d2.isEmpty then (ds.getLast?).map (fun c => [c]) else some d2
  | _ => (ds.getLast?).map (fun c => [c])

/-- Leftmost match of `Г\d*\.?(\d+)` over a lowered character list. -/
def findG : List Char → Option (List Char)
  | [] => none
  | c :: rest =>
    if c = 'г' then
      match gMatchAt rest with
      | some ds => some ds
      | none => findG rest
    else findG rest

/-- `_extract_korpus_number`: the `корп(\d+)` pattern first, the `Г\d*\.?(\d+)`
fallback second, both returning `"корп" ++ digits`; `none` models the raised
`ValueError`. -/
def extractKorpus (filename : String) : Option String :=
  let low := filename.data.map lowerRu
  match findKorp low with
  | some ds => some (String.mk ('к' :: 'о' :: 'р' :: 'п' :: ds))
  | none =>
    match findG low with
    | some ds => some (String.mk ('к' :: 'о' :: 'р' :: 'п' :: ds))
    | none => none

def startsWithChars : List Char → List Char → Bool
  | [], _ => true
  | _ :: _, [] => false
  | a :: as, b :: bs => if a = b then startsWithChars as bs else false

/-- Python's `needle in haystack` on strings (as character lists). -/
def containsChars (needle : List Char) : List Char → Bool
  | [] => needle.isEmpty
  | c :: rest => startsWithChars needle (c :: rest) || containsChars needle rest

/-- `"Внешний" in filename or "внешний" in filename`. -/
def isOuterName (filename : String) : Bool :=
  containsChars "Внешний".data filename.data || containsChars "внешний".data filename.data

/-- The analyzer's registry `self.bases` (an insertion-ordered dict with
unique keys, modelled as an association list with first-match lookup). -/
def lookupBase : List (String × BaseInfo) → String → Option BaseInfo
  | [], _ => none
  | (k, b) :: rest, key => if k = key then some b else lookupBase rest key

inductive MatchError
  | unparsableFilename
  | unknownAssembly (known : List String)
deriving DecidableEq, Repr

/-- The result of `match_radius_to_base`.  The Python record stores the float
`target_length = <chosen arc>.arc_length`; with exact reals that scalar is
the noncomputable `target_arc.arcLenPi · π`, so the model records the chosen
arc and the theorems state the scalar equation. -/
structure RadiusFileInfo where
  korpus_number : String
  is_outer : Bool
  current_length : ℚ
  target_arc : ArcInfo
  base_info : BaseInfo
deriving DecidableEq, Repr

/-- `match_radius_to_base`: side from the filename token, assembly identifier
via `_extract_korpus_number` (its ValueError propagates), registry lookup
failing with UnknownAssembly listing the known identifiers, and the target
taken from the outer (`arc1`) or inner (`arc2`) arc per the side. -/
def matchRadiusToBase (bases : List (String × BaseInfo)) (filename : String)
    (current_length : ℚ) : Except MatchError RadiusFileInfo :=
  let is_outer := isOuterName filename
  match extractKorpus filename with
  | none => .error .unparsableFilename
  | some k =>
    match lookupBase bases k with
    | none => .error (.unknownAssembly (bases.map (fun kb => kb.1)))
    | some b =>
      .ok { korpus_number := k, is_outer := is_outer, current_length := current_length,
            target_arc := if is_outer then b.arc1 else b.arc2, base_info := b }

/-- The width comparison of `check_widths`: with both widths measured, the
signed difference `outer − inner` and the strict-tolerance flag
`abs(width_diff) > tolerance`; with either missing, difference 0.0 and no
flag. -/
def widthCheck (outerW innerW : Option ℚ) (tol : ℚ) : ℚ × Bool :=
  match outerW, innerW with
  | some o, some i => (o - i, decide (tol < |o - i|))
  | _, _ => (0, false)

/-- The default `tolerance: float = 0.1` of `check_widths`. -/
def defaultWidthTol : ℚ := 1 / 10

/-! ### Statement-helper definitions -/

/-- The zones `zs` tile `[c, h]`: each zone starts where the previous ended
(the first at `c`), has nonnegative length, and the last ends at `h`. -/
def ZonesChain : ℚ → List Zone → ℚ → Prop
  | c, [], h => c = h
  | c, z :: rest, h => z.start_old = c ∧ c ≤ z.end_old ∧ ZonesChain z.end_old rest h

/-- No two adjacent zones share a tag. -/
def ZonesAlternate : List Zone → Prop
  | [] => True
  | [_] => True
  | z1 :: z2 :: rest => z1.zone_type ≠ z2.zone_type ∧ ZonesAlternate (z2 :: rest)

/-- The mapping segments are contiguous in the new domain from `c` to `h`. -/
def SegsNewChain : ℚ → List MappingSegment → ℚ → Prop
  | c, [], h => c = h
  | c, s :: rest, h => s.start_new = c ∧ SegsNewChain s.end_new rest h

/-- The mapping segments are contiguous in the old domain from `c` to `h`. -/
def SegsOldChain : ℚ → List MappingSegment → ℚ → Prop
  | c, [], h => c = h
  | c, s :: rest, h => s.start_old = c ∧ SegsOldChain s.end_old rest h

/-- The entity kinds whose bounding boxes are exact in the rational model:
lines, points, circles of nonnegative radius, and nonempty straight polylines
with readable vertices.  Splines, arcs and opaque kinds have trigonometric or
unknown bounds (outside the model), and a malformed or curved polyline's
bounds likewise. -/
def SimpleEntity : Entity → Prop
  | .line _ _ => True
  | .point _ => True
  | .circle _ r => 0 ≤ r
  | .polyline vs => vs ≠ [] ∧ ∀ v ∈ vs, v.ok = true ∧ v.bulge = 0
  | _ => False

/-- `v` does not fall in the half-open 1e-9 selection crack just past a
segment boundary: for every zone end `b`, not `b < v ≤ b + 1e-9`.  The
coordinate mapper's scan has a 1e-9 tolerance at segment ends; a coordinate
inside such a crack is mapped by the earlier segment's rule. -/
def NoCrack (zs : List Zone) (v : ℚ) : Prop :=
  ∀ z ∈ zs, ¬ (z.end_old < v ∧ v ≤ z.end_old + eps9)

/-- An entity none of whose vertices is malformed (every entity kind but a
polyline carries no per-vertex failure mode in the model). -/
def OkEntity : Entity → Prop
  | .polyline vs => ∀ v ∈ vs, v.ok = true
  | _ => True

/-- The active-axis coordinates a transform reads and writes, per entity
kind — the observation used to state how far an entity was moved. -/
def entityObs (a : Axis) : Entity → List ℚ
  | .line s e => [s.get a, e.get a]
  | .polyline vs => vs.map (PVertex.get a)
  | .spline ctrl fit => ctrl.map (Pt.get a) ++ fit.map (Pt.get a)
  | .circle c _ => [c.get a]
  | .arc c _ _ _ => [c.get a]
  | .point p => [p.get a]
  | .other p => [p.get a]

/-- The translation `_apply_anchor_shift` actually applies: the anchor shift
`old − mapped` when at least 1e-6, otherwise zero (skipped). -/
def anchorShiftAmount (m : List MappingSegment) (lo hi : ℚ) (anc : Anchor) : ℚ :=
  let av := anchorValue lo hi anc
  let shift := av - mapValue m av
  if |shift| < eps6 then 0 else shift

/-- Geometric well-formedness: circles have nonnegative radius (a DXF circle
always does), so their bounding interval is a genuine interval. -/
def EntityWF : Entity → Prop
  | .circle _ r => 0 ≤ r
  | _ => True

/-- Shape preservation for circles and arcs: radius, start and end angle are
unchanged and at most the center's active-axis coordinate moved. -/
def ArcShapeKept (a : Axis) (e e' : Entity) : Prop :=
  (∀ c r, e = Entity.circle c r → ∃ v, e' = Entity.circle (c.set a v) r) ∧
  (∀ c r sa ea, e = Entity.arc c r sa ea → ∃ v, e' = Entity.arc (c.set a v) r sa ea)

/-- A small drawing: two lines with a circle between them; zones on X are
stretch [0,1], fixed [1,2], stretch [2,3]. -/
def exDrawing : List Entity :=
  [Entity.line ⟨0, 0, 0⟩ ⟨1, 0, 0⟩, Entity.circle ⟨3/2, 0, 0⟩ (1/2),
    Entity.line ⟨2, 0, 0⟩ ⟨3, 0, 0⟩]

/-- A polyline whose second vertex is malformed: remapping it fails after the
first vertex was already moved in place. -/
def cexPoly : Entity := Entity.polyline [⟨5, 0, 0, true⟩, ⟨7, 0, 0, false⟩]

/-- A one-segment mapping that doubles the axis range [0,10] to [0,20]. -/
def cexMapping : List MappingSegment := [⟨0, 10, .stretch, 0, 20⟩]

/-- The reference registry of the spec's worked example: outer arc radius 50
spanning 0°→180°, inner arc radius 30 spanning 0°→170°. -/
def exampleBase : BaseInfo :=
  ⟨"корп1", ⟨50, (0, 0), 0, 180⟩, ⟨30, (0, 0), 0, 170⟩⟩

/-! ### Helper lemmas -/

theorem ZoneType.fixed_eq_stretch_false : (ZoneType.fixed = ZoneType.stretch) = False := by
  simp

theorem ZoneType.stretch_eq_fixed_false : (ZoneType.stretch = ZoneType.fixed) = False := by
  simp

theorem Pt.set_get (a : Axis) (p : Pt) : p.set a (p.get a) = p := by
  cases a <;> rfl

theorem Pt.get_set (a : Axis) (v : ℚ) (p : Pt) : (p.set a v).get a = v := by
  cases a <;> rfl

theorem Pt.set_set (a : Axis) (v w : ℚ) (p : Pt) : (p.set a v).set a w = p.set a w := by
  cases a <;> rfl

theorem PVertex.set_of_get (a : Axis) (v : PVertex) : v.set a (v.get a) = v := by
  cases a <;> rfl

theorem PVertex.get_of_set (a : Axis) (c : ℚ) (v : PVertex) : (v.set a c).get a = c := by
  cases a <;> rfl

theorem eps9_pos : 0 < eps9 := by norm_num [eps9]

theorem eps6_pos : 0 < eps6 := by norm_num [eps6]

/-! ### Claim theorems: error handling and width check -/

/-- C2: `_build_mapping` fails with NoElasticRegion exactly when the total
stretch length is ≤ 0 and |target − current extent| > 1e-9, and not
otherwise; in particular a drawing that is one circle spanning the whole axis
range, stretched to a different length, fails rather than moving the circle. -/
theorem build_mapping_no_elastic_iff :
    (∀ (lo hi target : ℚ) (zones : List Zone),
      (buildMapping lo hi target zones = .error .noElasticRegion ↔
        stretchTotal zones ≤ 0 ∧ eps9 < |target - (hi - lo)|)) ∧
    stretchDrawing [Entity.circle ⟨5, 0, 0⟩ 5] 12 .X .start = .error .noElasticRegion := by
  constructor
  · intro lo hi target zones
    by_cases h : eps9 < |target - (hi - lo)| ∧ stretchTotal zones ≤ 0
    · simp only [buildMapping, if_pos h, true_iff]
      exact ⟨h.2, h.1⟩
    · rw [buildMapping]
      simp only [if_neg h]
      rw [not_and_or] at h
      constructor
      · intro hfalse
        exact absurd hfalse (by simp)
      · intro hc
        cases h with
        | inl h => exact absurd hc.2 h
        | inr h => exact absurd hc.1 h
  · norm_num [stretchDrawing, drawingExtents, entityInterval, Pt.get, List.filterMap,
      fixedIntervalsRaw, isFixedEntity, List.filter, getZones, clipIntervals, sortIntervals,
      List.insertionSort, mergeIntervals, mergeStep, zonesWalk, List.foldl, buildMapping,
      stretchTotal, Zone.length, ZoneType.isStretch, eps9]

/-- C9: the width check reports the signed difference `outer − inner` and
flags adjustment exactly when |difference| is strictly greater than the
tolerance (default 0.1); a difference exactly equal to the tolerance is not
flagged (outer 120.10 vs inner 120.00), while 120.11 vs 120.00 is. -/
theorem width_check_strict_tolerance :
    (∀ o i tol : ℚ,
      (widthCheck (some o) (some i) tol).1 = o - i ∧
      ((widthCheck (some o) (some i) tol).2 = true ↔ tol < |o - i|)) ∧
    widthCheck (some (1201/10)) (some 120) defaultWidthTol = (1/10, false) ∧
    widthCheck (some (12011/100)) (some 120) defaultWidthTol = (11/100, true) := by
  refine ⟨fun o i tol => ⟨rfl, by simp [widthCheck]⟩, ?_, ?_⟩
  · have h1 : (1201 : ℚ)/10 - 120 = 1/10 := by norm_num
    have h2 : ¬ (defaultWidthTol < |(1201:ℚ)/10 - 120|) := by
      rw [h1, abs_of_nonneg (by norm_num : (0:ℚ) ≤ 1/10)]
      norm_num [defaultWidthTol]
    show ((1201:ℚ)/10 - 120, decide (defaultWidthTol < |(1201:ℚ)/10 - 120|)) = (1/10, false)
    rw [decide_eq_false h2, h1]
  · have h1 : (12011 : ℚ)/100 - 120 = 11/100 := by norm_num
    have h2 : defaultWidthTol < |(12011:ℚ)/100 - 120| := by
      rw [h1, abs_of_nonneg (by norm_num : (0:ℚ) ≤ 11/100)]
      norm_num [defaultWidthTol]
    show ((12011:ℚ)/100 - 120, decide (defaultWidthTol < |(12011:ℚ)/100 - 120|)) = (11/100, true)
    rw [decide_eq_true h2, h1]

/-! ### Claim C7: catch-and-continue during `_apply_mapping` -/

theorem mapVerts_append_ok (m : List MappingSegment) (a : Axis) (pre : List PVertex)
    (v : PVertex) (post : List PVertex) (hpre : ∀ w ∈ pre, w.ok = true) (hbad : v.ok = false) :
    mapVerts m a (pre ++ v :: post) =
      pre.map (fun w => w.set a (mapValue m (w.get a))) ++ v :: post := by
  induction pre with
  | nil => simp [mapVerts, hbad]
  | cons w ws ih =>
    have hw : w.ok = true := hpre w (List.mem_cons_self w ws)
    simp only [List.cons_append, mapVerts, hw, if_true, List.map_cons, List.append_eq]
    rw [ih (fun u hu => hpre u (List.mem_cons_of_mem w hu))]

/-- C7 (counterexample): the failure on `cexPoly`'s second vertex is caught,
but the entity is NOT left unmodified — its first vertex has already been
remapped in place (5 ↦ 10), so the surviving entity differs from the
original. -/
theorem apply_mapping_unmodified_counterexample :
    applyMapping cexMapping .X [cexPoly] =
      [Entity.polyline [⟨10, 0, 0, true⟩, ⟨7, 0, 0, false⟩]] ∧
    applyMapping cexMapping .X [cexPoly] ≠ [cexPoly] := by
  have h : applyMapping cexMapping .X [cexPoly] =
      [Entity.polyline [⟨10, 0, 0, true⟩, ⟨7, 0, 0, false⟩]] := by
    norm_num [applyMapping, mapEntity, cexPoly, cexMapping, mapVerts, PVertex.get, PVertex.set,
      mapValue, mapValueAux, segEval, MappingSegment.length, MappingSegment.length_new, eps9,
      List.getLast?]
  refine ⟨h, ?_⟩
  rw [h]
  intro hc
  rw [cexPoly] at hc
  have := List.head_eq_of_cons_eq hc
  simp only [Entity.polyline.injEq, List.cons.injEq, PVertex.mk.injEq] at this
  norm_num at this

/-- C7 (amended): a failure transforming one entity is caught and processing
continues with the remaining entities, but the failing polyline keeps its
already-remapped leading vertices; only the vertices from the first malformed
one onward (and entities whose transform fails before any write) are left
unmodified. -/
theorem apply_mapping_partial_continue (m : List MappingSegment) (a : Axis)
    (d1 d2 : List Entity) (pre post : List PVertex) (v : PVertex)
    (hpre : ∀ w ∈ pre, w.ok = true) (hbad : v.ok = false) :
    applyMapping m a (d1 ++ Entity.polyline (pre ++ v :: post) :: d2) =
      applyMapping m a d1 ++
        Entity.polyline (pre.map (fun w => w.set a (mapValue m (w.get a))) ++ v :: post) ::
          applyMapping m a d2 := by
  simp only [applyMapping, List.map_append, List.map_cons, mapEntity]
  rw [mapVerts_append_ok m a pre v post hpre hbad]

/-- Witness for C7's amended theorem at a concrete drawing. -/
theorem apply_mapping_partial_continue_witness :
    applyMapping cexMapping .X
        ([Entity.point ⟨1, 0, 0⟩] ++
          Entity.polyline ([⟨5, 0, 0, true⟩] ++ (⟨7, 0, 0, false⟩ : PVertex) :: []) ::
            [Entity.point ⟨2, 0, 0⟩]) =
      applyMapping cexMapping .X [Entity.point ⟨1, 0, 0⟩] ++
        Entity.polyline
            (([⟨5, 0, 0, true⟩] : List PVertex).map
              (fun w => w.set .X (mapValue cexMapping (w.get .X))) ++
              (⟨7, 0, 0, false⟩ : PVertex) :: []) ::
          applyMapping cexMapping .X [Entity.point ⟨2, 0, 0⟩] :=
  apply_mapping_partial_continue cexMapping .X [Entity.point ⟨1, 0, 0⟩] [Entity.point ⟨2, 0, 0⟩]
    [⟨5, 0, 0, true⟩] [] ⟨7, 0, 0, false⟩ (by simp) rfl

/-! ### Claim C8: reference matching and arc length -/

theorem radian_lt_iff_deg_lt (sa ea : ℚ) :
    ((ea : ℝ) * Real.pi / 180 < (sa : ℝ) * Real.pi / 180) ↔ ea < sa := by
  have hpos : (0 : ℝ) < Real.pi / 180 := by positivity
  rw [mul_div_assoc, mul_div_assoc, mul_lt_mul_right hpos, Rat.cast_lt]

/-- C8: `match_radius_to_base` determines the side from the filename token and
resolves the assembly identifier; with no matching ReferenceRecord it fails
with UnknownAssembly listing the known identifiers, otherwise it returns the
matched record's outer (resp. inner) arc as the target, whose length is
radius × angular span in radians with the span normalized by adding 2π when
the end angle is less than the start angle (`arcLenPi · π` is that length). -/
theorem match_radius_target_resolution (bases : List (String × BaseInfo)) (fname : String)
    (clen : ℚ) (k : String) (hk : extractKorpus fname = some k) :
    (lookupBase bases k = none →
      matchRadiusToBase bases fname clen =
        .error (.unknownAssembly (bases.map (fun kb => kb.1)))) ∧
    (∀ b, lookupBase bases k = some b →
      matchRadiusToBase bases fname clen =
        .ok ⟨k, isOuterName fname, clen, if isOuterName fname then b.arc1 else b.arc2, b⟩) ∧
    (∀ i : ArcInfo, (i.arcLenPi : ℝ) * Real.pi =
      i.radius *
        ((if (i.end_angle : ℝ) * Real.pi / 180 < (i.start_angle : ℝ) * Real.pi / 180 then
            (i.end_angle : ℝ) * Real.pi / 180 + 2 * Real.pi
          else (i.end_angle : ℝ) * Real.pi / 180) -
          (i.start_angle : ℝ) * Real.pi / 180)) := by
  refine ⟨?_, ?_, ?_⟩
  · intro hnone
    simp only [matchRadiusToBase, hk, hnone]
  · intro b hb
    simp only [matchRadiusToBase, hk, hb]
  · intro i
    rw [ArcInfo.arcLenPi, ArcInfo.spanDeg]
    by_cases hlt : i.end_angle < i.start_angle
    · rw [if_pos ((radian_lt_iff_deg_lt i.start_angle i.end_angle).mpr hlt), if_pos hlt]
      push_cast
      ring
    · rw [if_neg (fun hc => hlt ((radian_lt_iff_deg_lt i.start_angle i.end_angle).mp hc)),
        if_neg hlt]
      push_cast
      ring

/-- Witness for C8 at the spec's example: an outer-side work drawing of
assembly корп1 resolves against the registry, and the resolved target arc
length is 50π (≈ 157.080). -/
theorem match_radius_target_resolution_witness :
    matchRadiusToBase [("корп1", exampleBase)] "Внешний радиус корп1.dxf" 100 =
      .ok ⟨"корп1", true, 100, exampleBase.arc1, exampleBase⟩ ∧
    (exampleBase.arc1.arcLenPi : ℝ) * Real.pi = 50 * Real.pi := by
  have hk : extractKorpus "Внешний радиус корп1.dxf" = some "корп1" := by decide
  have h := match_radius_target_resolution [("корп1", exampleBase)]
    "Внешний радиус корп1.dxf" 100 "корп1" hk
  have houter : isOuterName "Внешний радиус корп1.dxf" = true := by decide
  have hres := h.2.1 exampleBase (by rw [lookupBase, if_pos rfl])
  rw [houter] at hres
  refine ⟨by rw [hres, if_pos rfl], ?_⟩
  have : exampleBase.arc1.arcLenPi = 50 := by
    norm_num [exampleBase, ArcInfo.arcLenPi, ArcInfo.spanDeg]
  rw [this]
  norm_num

/-! ### Claim C5: the anchor re-positioner -/

theorem entityObs_translate (a : Axis) (t : ℚ) (e : Entity) (hok : OkEntity e) :
    entityObs a ((translateEntityQ a t e).getD e) = (entityObs a e).map (fun v => v + t) := by
  cases e with
  | line s e => simp [translateEntityQ, entityObs, translatePt, Pt.get_set]
  | polyline vs =>
    have hall : vs.all (fun v => v.ok) = true := by
      rw [List.all_eq_true]
      exact hok
    simp [translateEntityQ, hall, entityObs, PVertex.get_of_set, Function.comp]
  | spline ctrl fit =>
    have hfun : ∀ p : Pt, (translatePt a t p).get a = p.get a + t :=
      fun p => Pt.get_set a _ p
    simp [translateEntityQ, entityObs, Function.comp_def, hfun]
  | circle c r => simp [translateEntityQ, entityObs, translatePt, Pt.get_set]
  | arc c r sa ea => simp [translateEntityQ, entityObs, translatePt, Pt.get_set]
  | point p => simp [translateEntityQ, entityObs, translatePt, Pt.get_set]
  | other p => simp [translateEntityQ, entityObs, translatePt, Pt.get_set]

theorem forall₂_map_of_mem {α β : Type} (R : α → β → Prop) (f : α → β) (l : List α)
    (h : ∀ x ∈ l, R x (f x)) : List.Forall₂ R l (l.map f) := by
  induction l with
  | nil => exact List.Forall₂.nil
  | cons x xs ih =>
    exact List.Forall₂.cons (h x (List.mem_cons_self x xs))
      (ih (fun y hy => h y (List.mem_cons_of_mem x hy)))

/-- C5: after the mapping and the anchor shift, the anchor point's coordinate
differs from its original value by less than 1e-6; the corrective translation
applied to every (well-formed) entity is exactly `old_anchor − mapped_anchor`,
and it is skipped (zero) when that shift is below 1e-6. -/
theorem anchor_shift_preserves_anchor (m : List MappingSegment) (lo hi : ℚ) (anc : Anchor)
    (a : Axis) (d : List Entity) (hok : ∀ e ∈ d, OkEntity e) :
    |mapValue m (anchorValue lo hi anc) + anchorShiftAmount m lo hi anc
        - anchorValue lo hi anc| < eps6 ∧
    (¬ |anchorValue lo hi anc - mapValue m (anchorValue lo hi anc)| < eps6 →
      anchorShiftAmount m lo hi anc
        = anchorValue lo hi anc - mapValue m (anchorValue lo hi anc)) ∧
    (|anchorValue lo hi anc - mapValue m (anchorValue lo hi anc)| < eps6 →
      anchorShiftAmount m lo hi anc = 0) ∧
    List.Forall₂
      (fun e e' => entityObs a e'
        = (entityObs a e).map (fun v => v + anchorShiftAmount m lo hi anc))
      d (applyAnchorShift m a anc lo hi d) := by
  set av := anchorValue lo hi anc with hav
  set na := mapValue m av with hna
  by_cases hc : |av - na| < eps6
  · have hamt : anchorShiftAmount m lo hi anc = 0 := by
      rw [anchorShiftAmount]
      simp only [← hav, ← hna, if_pos hc]
    have happ : applyAnchorShift m a anc lo hi d = d := by
      rw [applyAnchorShift]
      simp only [← hav, ← hna, if_pos hc]
    refine ⟨?_, fun hcon => absurd hc hcon, fun _ => hamt, ?_⟩
    · rw [hamt, add_zero]
      have : na - av = -(av - na) := by ring
      rw [this, abs_neg]
      exact hc
    · rw [happ, hamt]
      refine List.forall₂_same.mpr (fun e _ => ?_)
      simp
  · have hamt : anchorShiftAmount m lo hi anc = av - na := by
      rw [anchorShiftAmount]
      simp only [← hav, ← hna, if_neg hc]
    have happ : applyAnchorShift m a anc lo hi d
        = d.map (fun e => (translateEntityQ a (av - na) e).getD e) := by
      rw [applyAnchorShift]
      simp only [← hav, ← hna, if_neg hc]
    refine ⟨?_, fun _ => hamt, fun hcon => absurd hcon hc, ?_⟩
    · rw [hamt]
      have : na + (av - na) - av = 0 := by ring
      rw [this, abs_zero]
      exact eps6_pos
    · rw [happ, hamt]
      exact forall₂_map_of_mem _ _ d
        (fun e he => entityObs_translate a (av - na) e (hok e he))

/-- Witness for C5 at a concrete mapping, drawing and anchor. -/
theorem anchor_shift_preserves_anchor_witness :
    |mapValue cexMapping (anchorValue 0 10 .atEnd) + anchorShiftAmount cexMapping 0 10 .atEnd
        - anchorValue 0 10 .atEnd| < eps6 ∧
    List.Forall₂
      (fun e e' => entityObs .X e'
        = (entityObs .X e).map (fun v => v + anchorShiftAmount cexMapping 0 10 .atEnd))
      [Entity.point ⟨3, 0, 0⟩] (applyAnchorShift cexMapping .X .atEnd 0 10 [Entity.point ⟨3, 0, 0⟩]) := by
  have h := anchor_shift_preserves_anchor cexMapping 0 10 .atEnd .X [Entity.point ⟨3, 0, 0⟩]
    (by intro e he; simp at he; subst he; trivial)
  exact ⟨h.1, h.2.2.2⟩

/-! ### Claim C3: the mapping builder's segment arithmetic -/

theorem zonesChain_mem_le {c h : ℚ} {zs : List Zone} (hch : ZonesChain c zs h) :
    ∀ z ∈ zs, z.start_old ≤ z.end_old := by
  induction zs generalizing c with
  | nil => intro z hz; exact absurd hz (List.not_mem_nil z)
  | cons z rest ih =>
    intro w hw
    obtain ⟨h1, h2, h3⟩ := hch
    rcases List.mem_cons.mp hw with hw | hw
    · subst hw; rw [h1]; exact h2
    · exact ih h3 w hw

theorem zonesChain_length_sum {c h : ℚ} {zs : List Zone} (hch : ZonesChain c zs h) :
    ((zs.map Zone.length).sum) = h - c := by
  induction zs generalizing c with
  | nil =>
    simp only [ZonesChain] at hch
    rw [List.map_nil, List.sum_nil, hch]
    ring
  | cons z rest ih =>
    obtain ⟨h1, h2, h3⟩ := hch
    have hz : z.length = z.end_old - c := by
      rw [Zone.length, h1, max_eq_right (sub_nonneg.mpr h2)]
    simp only [List.map_cons, List.sum_cons, hz, ih h3]
    ring

theorem stretchTotal_cons (z : Zone) (rest : List Zone) :
    stretchTotal (z :: rest) =
      (if z.zone_type = ZoneType.stretch then z.length else 0) + stretchTotal rest := by
  cases hz : z.zone_type <;>
    simp [stretchTotal, List.filter, ZoneType.isStretch, hz]

theorem newLen_sum (st delta : ℚ) (hst : 0 < st) (zs : List Zone) :
    ((zs.map (newLen st delta)).sum)
      = (zs.map Zone.length).sum + delta * (stretchTotal zs / st) := by
  induction zs with
  | nil => simp [stretchTotal]
  | cons z rest ih =>
    rw [List.map_cons, List.sum_cons, List.map_cons, List.sum_cons, ih, stretchTotal_cons]
    cases hz : z.zone_type with
    | stretch =>
      rw [newLen, if_pos ⟨hz, hst⟩, if_pos rfl, add_div, mul_add]
      ring
    | fixed =>
      rw [newLen, if_neg (fun hc => by rw [hz] at hc; exact absurd hc.1 (by simp)),
        if_neg (by simp), zero_add]
      ring

theorem buildSegs_new_chain (st delta : ℚ) (zs : List Zone) :
    ∀ cur : ℚ, SegsNewChain cur (buildSegs st delta zs cur)
      (cur + (zs.map (newLen st delta)).sum) := by
  induction zs with
  | nil => intro cur; simp [buildSegs, SegsNewChain]
  | cons z rest ih =>
    intro cur
    refine ⟨rfl, ?_⟩
    have := ih (cur + newLen st delta z)
    simp only [List.map_cons, List.sum_cons, ← add_assoc]
    exact this

theorem buildSegs_mem (st delta : ℚ) (zs : List Zone) :
    ∀ (cur : ℚ) (s : MappingSegment), s ∈ buildSegs st delta zs cur →
      ∃ z ∈ zs, s.start_old = z.start_old ∧ s.end_old = z.end_old ∧
        s.zone_type = z.zone_type ∧ s.end_new - s.start_new = newLen st delta z := by
  induction zs with
  | nil => intro cur s hs; exact absurd hs (List.not_mem_nil s)
  | cons z rest ih =>
    intro cur s hs
    rcases List.mem_cons.mp hs with hs | hs
    · refine ⟨z, List.mem_cons_self z rest, ?_⟩
      subst hs
      refine ⟨rfl, rfl, rfl, ?_⟩
      ring
    · obtain ⟨w, hw, hprops⟩ := ih (cur + newLen st delta z) s hs
      exact ⟨w, List.mem_cons_of_mem z hw, hprops⟩

theorem segsNewChain_sum {c h : ℚ} {m : List MappingSegment} (hch : SegsNewChain c m h) :
    (m.map (fun s => s.end_new - s.start_new)).sum = h - c := by
  induction m generalizing c with
  | nil => simp [SegsNewChain] at hch; rw [hch]; simp
  | cons s rest ih =>
    obtain ⟨h1, h2⟩ := hch
    simp only [List.map_cons, List.sum_cons, ih h2, h1]
    ring

/-- C3: with positive total stretch length, `_build_mapping` succeeds and
gives each fixed zone a new length equal to its old length and each stretch
zone `old + delta·(len/stretch_total)`; the new-domain intervals accumulate
left to right from `axis_min`, and the new lengths sum to `target_length`
(exactly, in exact arithmetic, hence within 1e-6). -/
theorem build_mapping_segment_lengths (lo hi target : ℚ) (zs : List Zone)
    (hst : 0 < stretchTotal zs) (hchain : ZonesChain lo zs hi) :
    ∃ m, buildMapping lo hi target zs = .ok m ∧
      SegsNewChain lo m (lo + target) ∧
      (∀ s ∈ m,
        (s.zone_type = ZoneType.fixed →
          s.end_new - s.start_new = s.end_old - s.start_old) ∧
        (s.zone_type = ZoneType.stretch →
          s.end_new - s.start_new = (s.end_old - s.start_old)
            + (target - (hi - lo)) * ((s.end_old - s.start_old) / stretchTotal zs))) ∧
      (m.map (fun s => s.end_new - s.start_new)).sum = target := by
  set st := stretchTotal zs with hstdef
  set delta := target - (hi - lo) with hdelta
  have hcond : ¬ (eps9 < |delta| ∧ st ≤ 0) := fun hc => absurd hst (not_lt.mpr hc.2)
  have hsum : (zs.map (newLen st delta)).sum = target := by
    rw [newLen_sum st delta hst zs, zonesChain_length_sum hchain, div_self (ne_of_gt hst),
      mul_one, hdelta]
    ring
  have hch := buildSegs_new_chain st delta zs lo
  rw [hsum] at hch
  refine ⟨buildSegs st delta zs lo, ?_, hch, ?_, ?_⟩
  · show (if eps9 < |delta| ∧ st ≤ 0 then Except.error StretchError.noElasticRegion
      else Except.ok (buildSegs st delta zs lo)) = Except.ok (buildSegs st delta zs lo)
    rw [if_neg hcond]
  · intro s hs
    obtain ⟨z, hz, h1, h2, h3, h4⟩ := buildSegs_mem st delta zs lo s hs
    have hle : z.start_old ≤ z.end_old := zonesChain_mem_le hchain z hz
    have hlen : z.length = z.end_old - z.start_old := by
      rw [Zone.length, max_eq_right (sub_nonneg.mpr hle)]
    constructor
    · intro hf
      rw [h4, newLen, if_neg (fun hc => by rw [← h3, hf] at hc; exact absurd hc.1 (by simp)),
        hlen, h1, h2]
    · intro hsz
      rw [h4, newLen, if_pos ⟨by rw [← h3]; exact hsz, hst⟩, hlen, h1, h2, hdelta]
  · rw [segsNewChain_sum hch]
    ring

/-- Witness for C3 at the three-zone sequence of `exDrawing` on X, stretched
to target 1/2. -/
theorem build_mapping_segment_lengths_witness :
    ∃ m, buildMapping 0 3 (1/2)
        [⟨0, 1, .stretch⟩, ⟨1, 2, .fixed⟩, ⟨2, 3, .stretch⟩] = .ok m ∧
      SegsNewChain 0 m (0 + 1/2) ∧
      (∀ s ∈ m,
        (s.zone_type = ZoneType.fixed →
          s.end_new - s.start_new = s.end_old - s.start_old) ∧
        (s.zone_type = ZoneType.stretch →
          s.end_new - s.start_new = (s.end_old - s.start_old)
            + ((1/2 : ℚ) - (3 - 0)) *
              ((s.end_old - s.start_old) /
                stretchTotal [⟨0, 1, .stretch⟩, ⟨1, 2, .fixed⟩, ⟨2, 3, .stretch⟩]))) ∧
      (m.map (fun s => s.end_new - s.start_new)).sum = 1/2 :=
  build_mapping_segment_lengths 0 3 (1/2)
    [⟨0, 1, .stretch⟩, ⟨1, 2, .fixed⟩, ⟨2, 3, .stretch⟩]
    (by norm_num [stretchTotal, Zone.length, List.filter, ZoneType.isStretch])
    (by norm_num [ZonesChain])

/-! ### Claim C6: fixed shapes survive stretching -/

theorem arcShapeKept_refl (a : Axis) (e : Entity) : ArcShapeKept a e e := by
  refine ⟨fun c r he => ⟨c.get a, ?_⟩, fun c r sa ea he => ⟨c.get a, ?_⟩⟩ <;>
    rw [he, Pt.set_get]

theorem arcShapeKept_mapEntity (m : List MappingSegment) (a : Axis) (e : Entity) :
    ArcShapeKept a e (mapEntity m a e) := by
  refine ⟨fun c r he => ?_, fun c r sa ea he => ?_⟩ <;> subst he
  · exact ⟨mapValue m (c.get a), rfl⟩
  · exact ⟨mapValue m (c.get a), rfl⟩

theorem arcShapeKept_anchorStep (a : Axis) (t : ℚ) (e : Entity) :
    ArcShapeKept a e ((translateEntityQ a t e).getD e) := by
  refine ⟨fun c r he => ?_, fun c r sa ea he => ?_⟩ <;> subst he
  · exact ⟨c.get a + t, rfl⟩
  · exact ⟨c.get a + t, rfl⟩

theorem arcShapeKept_trans {a : Axis} {e e' e'' : Entity}
    (h1 : ArcShapeKept a e e') (h2 : ArcShapeKept a e' e'') : ArcShapeKept a e e'' := by
  refine ⟨fun c r he => ?_, fun c r sa ea he => ?_⟩
  · obtain ⟨v, hv⟩ := h1.1 c r he
    obtain ⟨w, hw⟩ := h2.1 (c.set a v) r hv
    exact ⟨w, by rw [hw, Pt.set_set]⟩
  · obtain ⟨v, hv⟩ := h1.2 c r sa ea he
    obtain ⟨w, hw⟩ := h2.2 (c.set a v) r sa ea hv
    exact ⟨w, by rw [hw, Pt.set_set]⟩

theorem arcShapeKept_applyAnchorShift (m : List MappingSegment) (a : Axis) (anc : Anchor)
    (lo hi : ℚ) (d : List Entity) :
    List.Forall₂ (ArcShapeKept a) d (applyAnchorShift m a anc lo hi d) := by
  rw [applyAnchorShift]
  by_cases hc : |anchorValue lo hi anc - mapValue m (anchorValue lo hi anc)| < eps6
  · rw [if_pos hc]
    exact List.forall₂_same.mpr (fun e _ => arcShapeKept_refl a e)
  · rw [if_neg hc]
    exact forall₂_map_of_mem _ _ d (fun e _ => arcShapeKept_anchorStep a _ e)

theorem forall₂_trans_arcShape {a : Axis} {d1 d2 d3 : List Entity}
    (h1 : List.Forall₂ (ArcShapeKept a) d1 d2) (h2 : List.Forall₂ (ArcShapeKept a) d2 d3) :
    List.Forall₂ (ArcShapeKept a) d1 d3 := by
  induction h1 generalizing d3 with
  | nil => cases h2; exact List.Forall₂.nil
  | cons hab hrest ih =>
    cases h2 with
    | cons hbc hrest2 => exact List.Forall₂.cons (arcShapeKept_trans hab hbc) (ih hrest2)

/-- C6: after any stretch, every fixed mapping segment's length is exactly its
old length, and every circle's and arc's radius, start angle and end angle are
unchanged — only the center's active-axis coordinate may shift. -/
theorem fixed_shape_preserved :
    (∀ (lo hi target : ℚ) (zs : List Zone) (m : List MappingSegment),
      buildMapping lo hi target zs = .ok m →
      ∀ s ∈ m, s.zone_type = ZoneType.fixed → s.length_new = s.length) ∧
    (∀ (d : List Entity) (target : ℚ) (a : Axis) (anc : Anchor) (res : List Entity),
      stretchDrawing d target a anc = .ok res →
      List.Forall₂ (ArcShapeKept a) d res) := by
  constructor
  · intro lo hi target zs m hok s hs hf
    by_cases h : eps9 < |target - (hi - lo)| ∧ stretchTotal zs ≤ 0
    · simp only [buildMapping, if_pos h] at hok
      exact absurd hok (by simp)
    · simp only [buildMapping, if_neg h, Except.ok.injEq] at hok
      subst hok
      obtain ⟨z, hz, h1, h2, h3, h4⟩ := buildSegs_mem _ _ zs lo s hs
      have hzf : z.zone_type = ZoneType.fixed := by rw [← h3]; exact hf
      have hnl : newLen (stretchTotal zs) (target - (hi - lo)) z = z.length := by
        rw [newLen, if_neg (fun hc => by rw [hzf] at hc; exact absurd hc.1 (by simp))]
      have hzl : (0:ℚ) ≤ z.length := le_max_left 0 _
      rw [MappingSegment.length_new, h4, hnl, max_eq_right hzl, MappingSegment.length, h1, h2,
        Zone.length]
  · intro d target a anc res hok
    rw [stretchDrawing] at hok
    split at hok
    · cases hok
    · split at hok
      · cases hok
      · split at hok
        · cases hok
          exact List.forall₂_same.mpr (fun e _ => arcShapeKept_refl a e)
        · split at hok
          · cases hok
          · rename_i m hbm
            cases hok
            refine forall₂_trans_arcShape ?_ (arcShapeKept_applyAnchorShift m a anc _ _ _)
            exact forall₂_map_of_mem _ _ d (fun e _ => arcShapeKept_mapEntity m a e)

/-- Witness for C6: stretching `exDrawing` on X to length 5 moves the circle's
center from 3/2 to 5/2 but keeps its radius 1/2. -/
theorem fixed_shape_preserved_witness :
    List.Forall₂ (ArcShapeKept .X) exDrawing
      [Entity.line ⟨0, 0, 0⟩ ⟨2, 0, 0⟩, Entity.circle ⟨5/2, 0, 0⟩ (1/2),
        Entity.line ⟨3, 0, 0⟩ ⟨5, 0, 0⟩] :=
  fixed_shape_preserved.2 exDrawing 5 .X .start
    [Entity.line ⟨0, 0, 0⟩ ⟨2, 0, 0⟩, Entity.circle ⟨5/2, 0, 0⟩ (1/2),
      Entity.line ⟨3, 0, 0⟩ ⟨5, 0, 0⟩]
    (by norm_num [stretchDrawing, exDrawing, drawingExtents, entityInterval, Pt.get,
      List.filterMap, fixedIntervalsRaw, isFixedEntity, List.filter, ivUnion, getZones,
      clipIntervals, sortIntervals, List.insertionSort, List.orderedInsert, mergeIntervals,
      mergeStep, zonesWalk, List.foldl, buildMapping, buildSegs, newLen, stretchTotal,
      Zone.length, ZoneType.isStretch, eps9, eps6, applyMapping, mapEntity, mapPt, mapValue,
      mapValueAux, segEval, MappingSegment.length, MappingSegment.length_new, List.getLast?,
      applyAnchorShift, anchorValue, translateEntityQ, translatePt, Pt.set,
      ZoneType.fixed_eq_stretch_false, ZoneType.stretch_eq_fixed_false])

/-! ### Segmenter lemmas: clipping, sorting, merging -/

theorem clip_mem {lo hi : ℚ} {ivs : List (ℚ × ℚ)} {p : ℚ × ℚ}
    (hp : p ∈ clipIntervals lo hi ivs) : lo ≤ p.1 ∧ p.1 < p.2 ∧ p.2 ≤ hi := by
  rw [clipIntervals, List.mem_filter] at hp
  obtain ⟨hmem, hlt⟩ := hp
  rw [List.mem_map] at hmem
  obtain ⟨q, _, hq⟩ := hmem
  subst hq
  exact ⟨le_max_left lo q.1, of_decide_eq_true hlt, min_le_left hi q.2⟩

theorem sortIntervals_mem {ivs : List (ℚ × ℚ)} {p : ℚ × ℚ} :
    p ∈ sortIntervals ivs ↔ p ∈ ivs := by
  rw [sortIntervals]
  exact (List.perm_insertionSort _ ivs).mem_iff

theorem sortIntervals_sorted (ivs : List (ℚ × ℚ)) :
    (sortIntervals ivs).Pairwise (fun p q => p.1 ≤ q.1) := by
  haveI : IsTotal (ℚ × ℚ) (fun p q => p.1 ≤ q.1) := ⟨fun a b => le_total a.1 b.1⟩
  haveI : IsTrans (ℚ × ℚ) (fun p q => p.1 ≤ q.1) :=
    ⟨fun a b c hab hbc => le_trans hab hbc⟩
  exact List.sorted_insertionSort _ ivs

theorem mergeFold_spec (lo hi : ℚ) (l : List (ℚ × ℚ)) :
    ∀ acc : List (ℚ × ℚ),
      (∀ p ∈ l, lo ≤ p.1 ∧ p.1 < p.2 ∧ p.2 ≤ hi) →
      l.Pairwise (fun p q => p.1 ≤ q.1) →
      (∀ p ∈ acc, lo ≤ p.1 ∧ p.1 < p.2 ∧ p.2 ≤ hi) →
      acc.Chain' (fun x y => y.2 < x.1) →
      (∀ q ∈ l, ∀ r ∈ acc, r.1 ≤ q.1) →
      (∀ p ∈ l.foldl mergeStep acc, lo ≤ p.1 ∧ p.1 < p.2 ∧ p.2 ≤ hi) ∧
      (l.foldl mergeStep acc).Chain' (fun x y => y.2 < x.1) ∧
      (∀ x : ℚ × ℚ, ((∃ q ∈ acc, q.1 ≤ x.1 ∧ x.2 ≤ q.2) ∨ x ∈ l) →
        ∃ q ∈ l.foldl mergeStep acc, q.1 ≤ x.1 ∧ x.2 ≤ q.2) := by
  induction l with
  | nil =>
    intro acc _ _ hacc hch _
    refine ⟨hacc, hch, fun x hx => ?_⟩
    rcases hx with ⟨q, hq, hcov⟩ | hx
    · exact ⟨q, hq, hcov⟩
    · exact absurd hx (List.not_mem_nil x)
  | cons p l' ih =>
    intro acc hl hsort hacc hch hord
    have hp := hl p (List.mem_cons_self p l')
    have hordp : ∀ r ∈ acc, r.1 ≤ p.1 := hord p (List.mem_cons_self p l')
    have hacc' : ∀ q ∈ mergeStep acc p, lo ≤ q.1 ∧ q.1 < q.2 ∧ q.2 ≤ hi := by
      intro r hr
      cases acc with
      | nil =>
        rw [mergeStep] at hr
        rcases List.mem_singleton.mp hr with h
        subst h; exact hp
      | cons q qs =>
        rw [mergeStep] at hr
        by_cases hb : q.2 < p.1
        · rw [if_pos hb] at hr
          rcases List.mem_cons.mp hr with h | h
          · subst h; exact hp
          · exact hacc r h
        · rw [if_neg hb] at hr
          have hq := hacc q (List.mem_cons_self q qs)
          rcases List.mem_cons.mp hr with h | h
          · subst h
            exact ⟨hq.1, lt_of_lt_of_le hq.2.1 (le_max_left _ _),
              max_le hq.2.2 hp.2.2⟩
          · exact hacc r (List.mem_cons_of_mem q h)
    have hch' : (mergeStep acc p).Chain' (fun x y => y.2 < x.1) := by
      cases acc with
      | nil => simp [mergeStep]
      | cons q qs =>
        rw [mergeStep]
        by_cases hb : q.2 < p.1
        · rw [if_pos hb]
          exact List.chain'_cons.mpr ⟨hb, hch⟩
        · rw [if_neg hb]
          cases qs with
          | nil => simp
          | cons y qs' =>
            have hqy := List.chain'_cons.mp hch
            exact List.chain'_cons.mpr ⟨hqy.1, hqy.2⟩
    have hord' : ∀ q ∈ l', ∀ r ∈ mergeStep acc p, r.1 ≤ q.1 := by
      intro w hw r hr
      have hpw : p.1 ≤ w.1 := (List.pairwise_cons.mp hsort).1 w hw
      cases acc with
      | nil =>
        rw [mergeStep] at hr
        rcases List.mem_singleton.mp hr with h
        subst h; exact hpw
      | cons q qs =>
        rw [mergeStep] at hr
        by_cases hb : q.2 < p.1
        · rw [if_pos hb] at hr
          rcases List.mem_cons.mp hr with h | h
          · subst h; exact hpw
          · exact le_trans (hord w (List.mem_cons_of_mem p hw) r h) (le_refl _)
        · rw [if_neg hb] at hr
          rcases List.mem_cons.mp hr with h | h
          · subst h
            exact hord w (List.mem_cons_of_mem p hw) q (List.mem_cons_self q qs)
          · exact hord w (List.mem_cons_of_mem p hw) r (List.mem_cons_of_mem q h)
    have hcovp : ∃ q ∈ mergeStep acc p, q.1 ≤ p.1 ∧ p.2 ≤ q.2 := by
      cases acc with
      | nil => exact ⟨p, by rw [mergeStep]; exact List.mem_singleton_self p, le_refl _, le_refl _⟩
      | cons q qs =>
        rw [mergeStep]
        by_cases hb : q.2 < p.1
        · rw [if_pos hb]
          exact ⟨p, List.mem_cons_self _ _, le_refl _, le_refl _⟩
        · rw [if_neg hb]
          exact ⟨(q.1, max q.2 p.2), List.mem_cons_self _ _,
            hordp q (List.mem_cons_self q qs), le_max_right _ _⟩
    have hcovkeep : ∀ x : ℚ × ℚ, (∃ q ∈ acc, q.1 ≤ x.1 ∧ x.2 ≤ q.2) →
        ∃ q ∈ mergeStep acc p, q.1 ≤ x.1 ∧ x.2 ≤ q.2 := by
      intro x ⟨c, hc, hc1, hc2⟩
      cases acc with
      | nil => exact absurd hc (List.not_mem_nil c)
      | cons q qs =>
        rw [mergeStep]
        by_cases hb : q.2 < p.1
        · rw [if_pos hb]
          exact ⟨c, List.mem_cons_of_mem p hc, hc1, hc2⟩
        · rw [if_neg hb]
          rcases List.mem_cons.mp hc with h | h
          · subst h
            exact ⟨(c.1, max c.2 p.2), List.mem_cons_self _ _, hc1,
              le_trans hc2 (le_max_left _ _)⟩
          · exact ⟨c, List.mem_cons_of_mem _ h, hc1, hc2⟩
    have hres := ih (mergeStep acc p)
      (fun w hw => hl w (List.mem_cons_of_mem p hw))
      (List.pairwise_cons.mp hsort).2 hacc' hch' hord'
    rw [List.foldl_cons]
    refine ⟨hres.1, hres.2.1, fun x hx => ?_⟩
    rcases hx with hx | hx
    · exact hres.2.2 x (Or.inl (hcovkeep x hx))
    · rcases List.mem_cons.mp hx with h | h
      · subst h
        exact hres.2.2 x (Or.inl hcovp)
      · exact hres.2.2 x (Or.inr h)

theorem mergeIntervals_spec (lo hi : ℚ) (l : List (ℚ × ℚ))
    (hl : ∀ p ∈ l, lo ≤ p.1 ∧ p.1 < p.2 ∧ p.2 ≤ hi)
    (hsort : l.Pairwise (fun p q => p.1 ≤ q.1)) :
    (∀ p ∈ mergeIntervals l, lo ≤ p.1 ∧ p.1 < p.2 ∧ p.2 ≤ hi) ∧
    (mergeIntervals l).Chain' (fun x y => x.2 < y.1) ∧
    (∀ x ∈ l, ∃ q ∈ mergeIntervals l, q.1 ≤ x.1 ∧ x.2 ≤ q.2) := by
  have hres := mergeFold_spec lo hi l []
    (by exact hl) hsort (by intro p hp; exact absurd hp (List.not_mem_nil p))
    List.chain'_nil (by intro q _ r hr; exact absurd hr (List.not_mem_nil r))
  refine ⟨?_, ?_, ?_⟩
  · intro p hp
    rw [mergeIntervals, List.mem_reverse] at hp
    exact hres.1 p hp
  · rw [mergeIntervals, List.chain'_reverse]
    exact hres.2.1
  · intro x hx
    obtain ⟨q, hq, hcov⟩ := hres.2.2 x (Or.inr hx)
    exact ⟨q, by rw [mergeIntervals, List.mem_reverse]; exact hq, hcov⟩

theorem sep_head {p : ℚ × ℚ} {rest : List (ℚ × ℚ)}
    (hch : (p :: rest).Chain' (fun x y => x.2 < y.1))
    (hlt : ∀ q ∈ rest, q.1 < q.2) :
    ∀ q ∈ rest, p.2 < q.1 := by
  induction rest generalizing p with
  | nil => intro q hq; exact absurd hq (List.not_mem_nil q)
  | cons y rest' ih =>
    intro q hq
    have h1 := (List.chain'_cons.mp hch).1
    rcases List.mem_cons.mp hq with h | h
    · subst h; exact h1
    · have hy := hlt y (List.mem_cons_self y rest')
      have h2 := ih (List.chain'_cons.mp hch).2
        (fun r hr => hlt r (List.mem_cons_of_mem y hr)) q h
      exact lt_trans (lt_trans h1 hy) h2

theorem zonesWalk_spec (hi : ℚ) (l : List (ℚ × ℚ)) :
    ∀ c : ℚ, c ≤ hi →
      (∀ p ∈ l, c ≤ p.1 ∧ p.1 < p.2 ∧ p.2 ≤ hi) →
      l.Chain' (fun x y => x.2 < y.1) →
      ZonesChain c (zonesWalk hi c l) hi ∧
      (∀ p ∈ l, Zone.mk p.1 p.2 ZoneType.fixed ∈ zonesWalk hi c l) ∧
      (∀ z ∈ zonesWalk hi c l, z.zone_type = ZoneType.fixed → (z.start_old, z.end_old) ∈ l) ∧
      (∀ z ∈ zonesWalk hi c l, z.start_old < z.end_old) := by
  induction l with
  | nil =>
    intro c hc _ _
    by_cases hlt : c < hi
    · rw [zonesWalk, if_pos hlt]
      refine ⟨⟨rfl, le_of_lt hlt, rfl⟩, fun p hp => absurd hp (List.not_mem_nil p), ?_, ?_⟩
      · intro z hz hf
        rcases List.mem_singleton.mp hz with h
        subst h; exact absurd hf (by simp)
      · intro z hz
        rcases List.mem_singleton.mp hz with h
        subst h; exact hlt
    · rw [zonesWalk, if_neg hlt]
      have hceq : c = hi := le_antisymm hc (not_lt.mp hlt)
      exact ⟨hceq, fun p hp => absurd hp (List.not_mem_nil p),
        fun z hz => absurd hz (List.not_mem_nil z),
        fun z hz => absurd hz (List.not_mem_nil z)⟩
  | cons p rest ih =>
    intro c hc hl hch
    obtain ⟨s, e⟩ := p
    have hp := hl (s, e) (List.mem_cons_self _ rest)
    have hse : s < e := hp.2.1
    have hcs : c ≤ s := hp.1
    have hce : c ≤ e := le_trans hcs (le_of_lt hse)
    have hmax : max c e = e := max_eq_right hce
    have hrest : ∀ q ∈ rest, e < q.1 :=
      sep_head hch (fun r hr => (hl r (List.mem_cons_of_mem _ hr)).2.1)
    have hrest' : ∀ q ∈ rest, e ≤ q.1 ∧ q.1 < q.2 ∧ q.2 ≤ hi := fun q hq =>
      ⟨le_of_lt (hrest q hq), (hl q (List.mem_cons_of_mem _ hq)).2.1,
        (hl q (List.mem_cons_of_mem _ hq)).2.2⟩
    have hrec := ih e hp.2.2 hrest' (List.chain'_cons'.mp hch).2
    rw [zonesWalk, hmax]
    by_cases hgap : c < s
    · rw [if_pos hgap]
      refine ⟨⟨rfl, le_of_lt hgap, rfl, le_of_lt hse, hrec.1⟩, ?_, ?_, ?_⟩
      · intro q hq
        rcases List.mem_cons.mp hq with h | h
        · subst h
          exact List.mem_append_right _ (List.mem_cons_self _ _)
        · exact List.mem_append_right _
            (List.mem_cons_of_mem _ (hrec.2.1 q h))
      · intro z hz hf
        rcases List.mem_append.mp hz with h | h
        · rcases List.mem_singleton.mp h with h2
          subst h2; exact absurd hf (by simp)
        · rcases List.mem_cons.mp h with h2 | h2
          · subst h2; exact List.mem_cons_self _ _
          · exact List.mem_cons_of_mem _ (hrec.2.2.1 z h2 hf)
      · intro z hz
        rcases List.mem_append.mp hz with h | h
        · rcases List.mem_singleton.mp h with h2
          subst h2; exact hgap
        · rcases List.mem_cons.mp h with h2 | h2
          · subst h2; exact hse
          · exact hrec.2.2.2 z h2
    · rw [if_neg hgap]
      have hseq : s = c := le_antisymm (not_lt.mp hgap) hcs
      simp only [List.nil_append]
      refine ⟨⟨hseq, le_trans hcs (le_of_lt hse), hrec.1⟩, ?_, ?_, ?_⟩
      · intro q hq
        rcases List.mem_cons.mp hq with h | h
        · subst h; exact List.mem_cons_self _ _
        · exact List.mem_cons_of_mem _ (hrec.2.1 q h)
      · intro z hz hf
        rcases List.mem_cons.mp hz with h | h
        · subst h; exact List.mem_cons_self _ _
        · exact List.mem_cons_of_mem _ (hrec.2.2.1 z h hf)
      · intro z hz
        rcases List.mem_cons.mp hz with h | h
        · subst h; exact hse
        · exact hrec.2.2.2 z h

theorem zonesAlternate_cons {z : Zone} {l : List Zone}
    (h1 : ∀ w rest', l = w :: rest' → w.zone_type ≠ z.zone_type)
    (h2 : ZonesAlternate l) : ZonesAlternate (z :: l) := by
  cases l with
  | nil => trivial
  | cons w rest' => exact ⟨(h1 w rest' rfl).symm, h2⟩

theorem zonesWalk_head_stretch (hi : ℚ) (l : List (ℚ × ℚ)) (c : ℚ)
    (hsep : ∀ q ∈ l, c < q.1) :
    ∀ z rest', zonesWalk hi c l = z :: rest' → z.zone_type = ZoneType.stretch := by
  intro z rest' heq
  cases l with
  | nil =>
    rw [zonesWalk] at heq
    by_cases hlt : c < hi
    · rw [if_pos hlt] at heq
      rcases (List.cons.injEq _ _ _ _ ▸ heq) with ⟨h, _⟩
      rw [← h]
    · rw [if_neg hlt] at heq; cases heq
  | cons p rest =>
    obtain ⟨s, e⟩ := p
    rw [zonesWalk, if_pos (hsep (s, e) (List.mem_cons_self _ rest))] at heq
    rcases (List.cons.injEq _ _ _ _ ▸ heq) with ⟨h, _⟩
    rw [← h]

theorem zonesWalk_alternate (hi : ℚ) (l : List (ℚ × ℚ)) :
    ∀ c : ℚ,
      (∀ p ∈ l, c ≤ p.1 ∧ p.1 < p.2 ∧ p.2 ≤ hi) →
      l.Chain' (fun x y => x.2 < y.1) →
      ZonesAlternate (zonesWalk hi c l) := by
  induction l with
  | nil =>
    intro c _ _
    rw [zonesWalk]
    by_cases hlt : c < hi
    · rw [if_pos hlt]; trivial
    · rw [if_neg hlt]; trivial
  | cons p rest ih =>
    intro c hl hch
    obtain ⟨s, e⟩ := p
    have hp := hl (s, e) (List.mem_cons_self _ rest)
    have hce : c ≤ e := le_trans hp.1 (le_of_lt hp.2.1)
    have hmax : max c e = e := max_eq_right hce
    have hrest : ∀ q ∈ rest, e < q.1 :=
      sep_head hch (fun r hr => (hl r (List.mem_cons_of_mem _ hr)).2.1)
    have hrest' : ∀ q ∈ rest, e ≤ q.1 ∧ q.1 < q.2 ∧ q.2 ≤ hi := fun q hq =>
      ⟨le_of_lt (hrest q hq), (hl q (List.mem_cons_of_mem _ hq)).2.1,
        (hl q (List.mem_cons_of_mem _ hq)).2.2⟩
    have hrec := ih e hrest' (List.chain'_cons'.mp hch).2
    have hfix : ZonesAlternate (Zone.mk s e ZoneType.fixed :: zonesWalk hi e rest) := by
      refine zonesAlternate_cons ?_ hrec
      intro w rest' heq
      rw [zonesWalk_head_stretch hi rest e hrest w rest' heq]
      simp
    rw [zonesWalk, hmax]
    by_cases hgap : c < s
    · rw [if_pos hgap]
      exact zonesAlternate_cons (fun w rest' heq => by
        rcases (List.cons.injEq _ _ _ _ ▸ heq) with ⟨h, _⟩
        rw [← h]
        simp) hfix
    · rw [if_neg hgap]
      simpa using hfix

theorem getZones_spec (lo hi : ℚ) (ivs : List (ℚ × ℚ)) (hle : lo ≤ hi) :
    ZonesChain lo (getZones lo hi ivs) hi ∧
    ZonesAlternate (getZones lo hi ivs) ∧
    (∀ p ∈ clipIntervals lo hi ivs, ∃ z ∈ getZones lo hi ivs,
      z.zone_type = ZoneType.fixed ∧ z.start_old ≤ p.1 ∧ p.2 ≤ z.end_old) ∧
    (∀ z ∈ getZones lo hi ivs, z.zone_type = ZoneType.fixed →
      (z.start_old, z.end_old) ∈ mergeIntervals (sortIntervals (clipIntervals lo hi ivs))) ∧
    (lo < hi → ∀ z ∈ getZones lo hi ivs, z.start_old < z.end_old) := by
  have hhi2 : (if hi < lo then lo else hi) = hi := if_neg (not_lt.mpr hle)
  have hclipprops : ∀ p ∈ clipIntervals lo hi ivs, lo ≤ p.1 ∧ p.1 < p.2 ∧ p.2 ≤ hi :=
    fun p hp => clip_mem hp
  have hsortprops : ∀ p ∈ sortIntervals (clipIntervals lo hi ivs),
      lo ≤ p.1 ∧ p.1 < p.2 ∧ p.2 ≤ hi :=
    fun p hp => hclipprops p (sortIntervals_mem.mp hp)
  have hm := mergeIntervals_spec lo hi (sortIntervals (clipIntervals lo hi ivs)) hsortprops
    (sortIntervals_sorted (clipIntervals lo hi ivs))
  have hw := zonesWalk_spec hi (mergeIntervals (sortIntervals (clipIntervals lo hi ivs))) lo
    hle hm.1 hm.2.1
  have halt := zonesWalk_alternate hi (mergeIntervals (sortIntervals (clipIntervals lo hi ivs)))
    lo hm.1 hm.2.1
  have hgz : getZones lo hi ivs =
      if (zonesWalk hi lo (mergeIntervals (sortIntervals (clipIntervals lo hi ivs)))).isEmpty
      then [⟨lo, hi, ZoneType.stretch⟩]
      else zonesWalk hi lo (mergeIntervals (sortIntervals (clipIntervals lo hi ivs))) := by
    rw [getZones]
    simp only [hhi2]
  cases hwalk : zonesWalk hi lo (mergeIntervals (sortIntervals (clipIntervals lo hi ivs))) with
  | nil =>
    rw [hwalk] at hgz hw
    simp only [List.isEmpty_nil, if_pos] at hgz
    have hlohi : lo = hi := hw.1
    refine ⟨?_, ?_, ?_, ?_, ?_⟩ <;> rw [hgz]
    · exact ⟨rfl, hle, rfl⟩
    · trivial
    · intro p hp
      have := hclipprops p hp
      exact absurd (lt_of_le_of_lt this.1 (lt_of_lt_of_le this.2.1 this.2.2))
        (by rw [hlohi]; exact lt_irrefl hi)
    · intro z hz hf
      rcases List.mem_singleton.mp hz with h
      subst h; exact absurd hf (by simp)
    · intro hlt z hz
      rcases List.mem_singleton.mp hz with h
      subst h; exact hlt
  | cons z0 zs0 =>
    rw [hwalk] at hgz hw halt
    simp only [List.isEmpty_cons, Bool.false_eq_true, if_false] at hgz
    refine ⟨by rw [hgz]; exact hw.1, by rw [hgz]; exact halt, ?_, ?_, ?_⟩
    · intro p hp
      obtain ⟨q, hq, hq1, hq2⟩ := hm.2.2 p (sortIntervals_mem.mpr hp)
      refine ⟨Zone.mk q.1 q.2 ZoneType.fixed, by rw [hgz]; exact hw.2.1 q hq, rfl, hq1, hq2⟩
    · intro z hz hf
      rw [hgz] at hz
      exact hw.2.2.1 z hz hf
    · intro _ z hz
      rw [hgz] at hz
      exact hw.2.2.2 z hz

theorem getZones_ne_nil (lo hi : ℚ) (ivs : List (ℚ × ℚ)) : getZones lo hi ivs ≠ [] := by
  intro hc
  simp only [getZones] at hc
  split at hc <;> split at hc
  · exact List.cons_ne_nil _ _ hc
  · rename_i h2
    rw [hc] at h2
    simp at h2
  · exact List.cons_ne_nil _ _ hc
  · rename_i h2
    rw [hc] at h2
    simp at h2

theorem ivfold_le (rest : List (ℚ × ℚ)) :
    ∀ pr : ℚ × ℚ, pr.1 ≤ pr.2 → (rest.foldl ivUnion pr).1 ≤ (rest.foldl ivUnion pr).2 := by
  induction rest with
  | nil => intro pr h; exact h
  | cons q rest' ih =>
    intro pr h
    rw [List.foldl_cons]
    exact ih (ivUnion pr q)
      (le_trans (min_le_left pr.1 q.1) (le_trans h (le_max_left pr.2 q.2)))

theorem polyfold_le (a : Axis) (rest : List PVertex) :
    ∀ pr : ℚ × ℚ, pr.1 ≤ pr.2 →
      (rest.foldl (fun pr w => (min pr.1 (w.get a), max pr.2 (w.get a))) pr).1 ≤
      (rest.foldl (fun pr w => (min pr.1 (w.get a), max pr.2 (w.get a))) pr).2 := by
  induction rest with
  | nil => intro pr h; exact h
  | cons w rest' ih =>
    intro pr h
    rw [List.foldl_cons]
    exact ih _ (le_trans (min_le_left pr.1 (w.get a))
      (le_trans h (le_max_left pr.2 (w.get a))))

theorem entityInterval_le {a : Axis} {e : Entity} {p : ℚ × ℚ} (hwf : EntityWF e)
    (h : entityInterval a e = some p) : p.1 ≤ p.2 := by
  cases e with
  | line s t =>
    rw [entityInterval, Option.some.injEq] at h
    subst h
    exact le_trans (min_le_left _ _) (le_max_left _ _)
  | polyline vs =>
    rw [entityInterval, polyInterval.eq_def] at h
    split at h
    · cases vs with
      | nil => cases h
      | cons v rest =>
        rw [Option.some.injEq] at h
        subst h
        exact polyfold_le a rest (v.get a, v.get a) (le_refl _)
    · cases h
  | circle c r =>
    rw [entityInterval, Option.some.injEq] at h
    subst h
    have : (0:ℚ) ≤ r := hwf
    simp only
    linarith
  | point q =>
    rw [entityInterval, Option.some.injEq] at h
    subst h
    exact le_refl _
  | spline ctrl fit => cases h
  | arc c r sa ea => cases h
  | other q => cases h

theorem extents_le {a : Axis} {d : List Entity} {lo hi : ℚ}
    (hwf : ∀ e ∈ d, EntityWF e) (h : drawingExtents a d = some (lo, hi)) : lo ≤ hi := by
  rw [drawingExtents] at h
  cases hfm : d.filterMap (entityInterval a) with
  | nil => rw [hfm] at h; cases h
  | cons iv rest =>
    rw [hfm, Option.some.injEq] at h
    have hiv : iv.1 ≤ iv.2 := by
      have hmem : iv ∈ d.filterMap (entityInterval a) := by
        rw [hfm]; exact List.mem_cons_self iv rest
      rw [List.mem_filterMap] at hmem
      obtain ⟨e, he, hei⟩ := hmem
      exact entityInterval_le (hwf e he) hei
    have := ivfold_le rest iv hiv
    rw [h] at this
    exact this

/-- C4: for every loaded drawing and axis, the Zone Segmenter returns an
ordered zone sequence that is contiguous and gap-free over exactly
[axis_min, axis_max], with no two adjacent zones sharing a tag; and when the
drawing contains no fixed entity, the output is the single stretch zone
covering the whole range. -/
theorem zone_segmenter_invariants (a : Axis) (d : List Entity) (lo hi : ℚ)
    (hwf : ∀ e ∈ d, EntityWF e) (hext : drawingExtents a d = some (lo, hi)) :
    ZonesChain lo (getZones lo hi (fixedIntervalsRaw a d)) hi ∧
    ZonesAlternate (getZones lo hi (fixedIntervalsRaw a d)) ∧
    ((∀ e ∈ d, isFixedEntity e = false) →
      getZones lo hi (fixedIntervalsRaw a d) = [⟨lo, hi, ZoneType.stretch⟩]) := by
  have hle := extents_le hwf hext
  have hspec := getZones_spec lo hi (fixedIntervalsRaw a d) hle
  refine ⟨hspec.1, hspec.2.1, ?_⟩
  intro hnf
  have hraw : fixedIntervalsRaw a d = [] := by
    rw [fixedIntervalsRaw]
    have : d.filter (fun e => isFixedEntity e) = [] := by
      rw [List.filter_eq_nil_iff]
      intro e he
      rw [hnf e he]
      exact Bool.false_ne_true
    rw [this]
    rfl
  rw [hraw, getZones]
  have hhi2 : (if hi < lo then lo else hi) = hi := if_neg (not_lt.mpr hle)
  simp only [hhi2, clipIntervals, List.map_nil, List.filter_nil, sortIntervals,
    List.insertionSort, mergeIntervals, List.foldl_nil, List.reverse_nil, zonesWalk]
  by_cases hlt : lo < hi
  · rw [if_pos hlt]
    simp
  · rw [if_neg hlt]
    simp

/-- Witness for C4 at `exDrawing` on X. -/
theorem zone_segmenter_invariants_witness :
    ZonesChain 0 (getZones 0 3 (fixedIntervalsRaw .X exDrawing)) 3 ∧
    ZonesAlternate (getZones 0 3 (fixedIntervalsRaw .X exDrawing)) ∧
    ((∀ e ∈ exDrawing, isFixedEntity e = false) →
      getZones 0 3 (fixedIntervalsRaw .X exDrawing) = [⟨0, 3, ZoneType.stretch⟩]) :=
  zone_segmenter_invariants .X exDrawing 0 3
    (by
      intro e he
      rw [exDrawing] at he
      rcases List.mem_cons.mp he with h | he
      · subst h; trivial
      rcases List.mem_cons.mp he with h | he
      · subst h; norm_num [EntityWF]
      rcases List.mem_cons.mp he with h | he
      · subst h; trivial
      · exact absurd he (List.not_mem_nil e))
    (by norm_num [drawingExtents, exDrawing, entityInterval, Pt.get, List.filterMap, ivUnion])

/-- C10: in every mapping built from a Segmenter zone sequence the first
mapping segment's new start equals its old start (both `axis_min`), so the
fallback for unrecognized entity kinds — translate by the first segment's
offset — is the zero translation: such entities are left unchanged by the
mapping-application step. -/
theorem generic_fallback_zero_offset (lo hi target : ℚ) (ivs : List (ℚ × ℚ))
    (m : List MappingSegment) (hle : lo ≤ hi)
    (hm : buildMapping lo hi target (getZones lo hi ivs) = .ok m) :
    (∃ s rest, m = s :: rest ∧ s.start_new = lo ∧ s.start_old = lo) ∧
    (∀ (a : Axis) (p : Pt), mapEntity m a (.other p) = .other p) := by
  by_cases hc : eps9 < |target - (hi - lo)| ∧ stretchTotal (getZones lo hi ivs) ≤ 0
  · simp only [buildMapping, if_pos hc] at hm
    exact absurd hm (by simp)
  · simp only [buildMapping, if_neg hc, Except.ok.injEq] at hm
    obtain ⟨z, rest, hz⟩ := List.exists_cons_of_ne_nil (getZones_ne_nil lo hi ivs)
    have hchain := (getZones_spec lo hi ivs hle).1
    rw [hz] at hchain hm
    have hstart : z.start_old = lo := hchain.1
    rw [buildSegs] at hm
    subst hm
    constructor
    · exact ⟨_, _, rfl, rfl, hstart⟩
    · intro a p
      rw [mapEntity, mapGeneric]
      simp only [List.head?_cons, hstart]
      rw [sub_self, add_zero, Pt.set_get]

/-- Witness for C10 at a fixed-interval-free drawing on [0,1], target 2. -/
theorem generic_fallback_zero_offset_witness :
    (∃ s rest, ([⟨0, 1, ZoneType.stretch, 0, 2⟩] : List MappingSegment) = s :: rest ∧
      s.start_new = 0 ∧ s.start_old = 0) ∧
    (∀ (a : Axis) (p : Pt),
      mapEntity [⟨0, 1, ZoneType.stretch, 0, 2⟩] a (.other p) = .other p) :=
  generic_fallback_zero_offset 0 1 2 [] [⟨0, 1, ZoneType.stretch, 0, 2⟩]
    (by norm_num)
    (by norm_num [buildMapping, getZones, clipIntervals, sortIntervals, List.insertionSort,
      mergeIntervals, mergeStep, zonesWalk, List.foldl, buildSegs, newLen, stretchTotal,
      Zone.length, ZoneType.isStretch, List.filter, eps9])

/-! ### Claim C1: the coordinate mapper on a well-formed mapping -/

theorem segsNewChain_le {c h : ℚ} {m : List MappingSegment} (hch : SegsNewChain c m h)
    (hnn : ∀ s ∈ m, 0 ≤ s.end_new - s.start_new) : c ≤ h := by
  induction m generalizing c with
  | nil =>
    simp only [SegsNewChain] at hch
    exact le_of_eq hch
  | cons s rest ih =>
    obtain ⟨h1, h2⟩ := hch
    have h0 := hnn s (List.mem_cons_self s rest)
    have h3 := ih h2 (fun t ht => hnn t (List.mem_cons_of_mem s ht))
    calc c = s.start_new := h1.symm
    _ ≤ s.end_new := by linarith
    _ ≤ h := h3

theorem segsNewChain_mem_bounds {c h : ℚ} {m : List MappingSegment} (hch : SegsNewChain c m h)
    (hnn : ∀ s ∈ m, 0 ≤ s.end_new - s.start_new) :
    ∀ s ∈ m, c ≤ s.start_new ∧ s.end_new ≤ h := by
  induction m generalizing c with
  | nil => intro s hs; exact absurd hs (List.not_mem_nil s)
  | cons t rest ih =>
    intro s hs
    obtain ⟨h1, h2⟩ := hch
    have hnn0 := hnn t (List.mem_cons_self t rest)
    have hrest := ih h2 (fun u hu => hnn u (List.mem_cons_of_mem t hu))
    rcases List.mem_cons.mp hs with hh | hh
    · subst hh
      exact ⟨le_of_eq h1.symm,
        segsNewChain_le h2 (fun u hu => hnn u (List.mem_cons_of_mem s hu))⟩
    · obtain ⟨hb1, hb2⟩ := hrest s hh
      exact ⟨by linarith [h1, hnn0, hb1], hb2⟩

theorem segsOldChain_le {c h : ℚ} {m : List MappingSegment} (hch : SegsOldChain c m h)
    (hlen : ∀ s ∈ m, eps9 ≤ s.end_old - s.start_old) : c ≤ h := by
  induction m generalizing c with
  | nil =>
    simp only [SegsOldChain] at hch
    exact le_of_eq hch
  | cons s rest ih =>
    obtain ⟨h1, h2⟩ := hch
    have h0 := hlen s (List.mem_cons_self s rest)
    have h3 := ih h2 (fun t ht => hlen t (List.mem_cons_of_mem s ht))
    have he := eps9_pos
    calc c = s.start_old := h1.symm
    _ ≤ s.end_old := by linarith
    _ ≤ h := h3

theorem segsOldChain_lt {c h : ℚ} {m : List MappingSegment} (hch : SegsOldChain c m h)
    (hlen : ∀ s ∈ m, eps9 ≤ s.end_old - s.start_old) (hne : m ≠ []) : c < h := by
  cases m with
  | nil => exact absurd rfl hne
  | cons s rest =>
    obtain ⟨h1, h2⟩ := hch
    have h0 := hlen s (List.mem_cons_self s rest)
    have h3 := segsOldChain_le h2 (fun t ht => hlen t (List.mem_cons_of_mem s ht))
    have he := eps9_pos
    calc c = s.start_old := h1.symm
    _ < s.end_old := by linarith
    _ ≤ h := h3

theorem segsOldChain_mem_bounds {c h : ℚ} {m : List MappingSegment} (hch : SegsOldChain c m h)
    (hlen : ∀ s ∈ m, eps9 ≤ s.end_old - s.start_old) :
    ∀ s ∈ m, c ≤ s.start_old ∧ s.end_old ≤ h := by
  induction m generalizing c with
  | nil => intro s hs; exact absurd hs (List.not_mem_nil s)
  | cons t rest ih =>
    intro s hs
    obtain ⟨h1, h2⟩ := hch
    have hl0 := hlen t (List.mem_cons_self t rest)
    have he := eps9_pos
    have hrest := ih h2 (fun u hu => hlen u (List.mem_cons_of_mem t hu))
    rcases List.mem_cons.mp hs with hh | hh
    · subst hh
      exact ⟨le_of_eq h1.symm,
        segsOldChain_le h2 (fun u hu => hlen u (List.mem_cons_of_mem s hu))⟩
    · obtain ⟨hb1, hb2⟩ := hrest s hh
      exact ⟨by linarith [h1, hl0, hb1, eps9_pos], hb2⟩

theorem segs_end_eq {c h c' h' : ℚ} {m : List MappingSegment}
    (hold : SegsOldChain c m h) (hnew : SegsNewChain c' m h')
    (hlen : ∀ s ∈ m, eps9 ≤ s.end_old - s.start_old) :
    ∀ s ∈ m, s.end_old = h → s.end_new = h' := by
  induction m generalizing c c' with
  | nil => intro s hs; exact absurd hs (List.not_mem_nil s)
  | cons t rest ih =>
    intro s hs hEnd
    obtain ⟨ho1, ho2⟩ := hold
    obtain ⟨hn1, hn2⟩ := hnew
    rcases List.mem_cons.mp hs with hh | hh
    · subst hh
      cases hrest : rest with
      | nil =>
        rw [hrest] at hn2
        exact hn2
      | cons r rr =>
        have := segsOldChain_lt (hrest ▸ ho2)
          (fun u hu => hlen u (List.mem_cons_of_mem s (hrest ▸ hu)))
          (by simp)
        rw [hEnd] at this
        exact absurd this (lt_irrefl h)
    · exact ih ho2 hn2 (fun u hu => hlen u (List.mem_cons_of_mem t hu)) s hh hEnd

theorem segs_start_eq {c h c' h' : ℚ} {m : List MappingSegment}
    (hold : SegsOldChain c m h) (hnew : SegsNewChain c' m h')
    (hlen : ∀ s ∈ m, eps9 ≤ s.end_old - s.start_old) :
    ∀ s ∈ m, s.start_old = c → s.start_new = c' := by
  intro s hs hStart
  cases m with
  | nil => exact absurd hs (List.not_mem_nil s)
  | cons t rest =>
    obtain ⟨ho1, ho2⟩ := hold
    obtain ⟨hn1, hn2⟩ := hnew
    have hl0 := hlen t (List.mem_cons_self t rest)
    have he := eps9_pos
    rcases List.mem_cons.mp hs with hh | hh
    · subst hh; exact hn1
    · have hb := (segsOldChain_mem_bounds ho2
        (fun u hu => hlen u (List.mem_cons_of_mem t hu))) s hh
      exfalso
      have h3 : t.end_old ≤ c := hStart ▸ hb.1
      linarith [ho1, hl0, he, h3]

theorem mapValueAux_master (last? : Option MappingSegment) (m : List MappingSegment) :
    ∀ (c h c' h' : ℚ),
      SegsOldChain c m h → SegsNewChain c' m h' →
      (∀ s ∈ m, 0 ≤ s.end_new - s.start_new) →
      (∀ s ∈ m, eps9 ≤ s.end_old - s.start_old) →
      (∀ s ∈ m, s.zone_type = ZoneType.fixed →
        s.end_new - s.start_new = s.end_old - s.start_old) →
      ∀ v : ℚ, c ≤ v → v ≤ h → m ≠ [] →
        (∀ s ∈ m, ¬ (s.end_old < v ∧ v ≤ s.end_old + eps9)) →
        (c' ≤ mapValueAux last? m v ∧ mapValueAux last? m v ≤ h') ∧
        (v = c → mapValueAux last? m v = c') ∧
        (v = h → mapValueAux last? m v = h') ∧
        (∀ s ∈ m, s.zone_type = ZoneType.fixed → s.start_old ≤ v → v ≤ s.end_old →
          mapValueAux last? m v = v + (s.start_new - s.start_old)) := by
  induction m with
  | nil => intro c h c' h' _ _ _ _ _ v _ _ hne _; exact absurd rfl hne
  | cons s0 rest ih =>
    intro c h c' h' hold hnew hnn hlen hfx v hv1 hv2 _ hnc
    obtain ⟨holdS, holdR⟩ := hold
    obtain ⟨hnewS, hnewR⟩ := hnew
    have hlen0 := hlen s0 (List.mem_cons_self _ _)
    have hnn0 := hnn s0 (List.mem_cons_self _ _)
    have hepos := eps9_pos
    have hnnR : ∀ s ∈ rest, 0 ≤ s.end_new - s.start_new :=
      fun s hs => hnn s (List.mem_cons_of_mem _ hs)
    have hlenR : ∀ s ∈ rest, eps9 ≤ s.end_old - s.start_old :=
      fun s hs => hlen s (List.mem_cons_of_mem _ hs)
    have hfxR : ∀ s ∈ rest, s.zone_type = ZoneType.fixed →
        s.end_new - s.start_new = s.end_old - s.start_old :=
      fun s hs => hfx s (List.mem_cons_of_mem _ hs)
    have hncR : ∀ s ∈ rest, ¬ (s.end_old < v ∧ v ≤ s.end_old + eps9) :=
      fun s hs => hnc s (List.mem_cons_of_mem _ hs)
    by_cases hcase : v ≤ s0.end_old
    · have heval : mapValueAux last? (s0 :: rest) v = segEval s0 v := by
        rw [mapValueAux, if_neg (not_lt.mpr (by rw [holdS]; linarith)),
          if_pos (by linarith)]
      have hndeg : ¬ (s0.length < eps9) := by
        rw [MappingSegment.length]
        exact not_lt.mpr (le_trans hlen0 (le_max_right 0 _))
      have hL' : s0.length_new = s0.end_new - s0.start_new := by
        rw [MappingSegment.length_new, max_eq_right hnn0]
      have hLeq : s0.length = s0.end_old - s0.start_old := by
        rw [MappingSegment.length, max_eq_right (le_trans (le_of_lt hepos) hlen0)]
      have hLpos : 0 < s0.end_old - s0.start_old := lt_of_lt_of_le hepos hlen0
      have himg : segEval s0 v = s0.start_new +
          (v - s0.start_old) / (s0.end_old - s0.start_old) * (s0.end_new - s0.start_new) := by
        rw [segEval, if_neg hndeg, hLeq, hL']
      have hvs : s0.start_old ≤ v := by rw [holdS]; exact hv1
      have ht0 : 0 ≤ (v - s0.start_old) / (s0.end_old - s0.start_old) :=
        div_nonneg (by linarith) (le_of_lt hLpos)
      have ht1 : (v - s0.start_old) / (s0.end_old - s0.start_old) ≤ 1 := by
        rw [div_le_one hLpos]; linarith
      have hb1 : s0.start_new ≤ segEval s0 v := by
        rw [himg]
        have := mul_nonneg ht0 hnn0
        linarith
      have hb2 : segEval s0 v ≤ s0.end_new := by
        rw [himg]
        have := mul_le_of_le_one_left hnn0 ht1
        linarith
      have hre : s0.end_new ≤ h' := segsNewChain_le hnewR hnnR
      have hcle : c' ≤ s0.start_new := le_of_eq hnewS.symm
      refine ⟨⟨by rw [heval]; linarith, by rw [heval]; linarith⟩, ?_, ?_, ?_⟩
      · intro hvc
        have hz : v - s0.start_old = 0 := by rw [hvc, holdS]; ring
        rw [heval, himg, hz, zero_div, zero_mul, add_zero, hnewS]
      · intro hvh
        cases hrest : rest with
        | cons r rr =>
          exfalso
          have hlt := segsOldChain_lt (hrest ▸ holdR) (hrest ▸ hlenR) (by simp)
          rw [← hvh] at hlt
          exact absurd hcase (not_le.mpr hlt)
        | nil =>
          rw [hrest] at holdR hnewR heval
          have hEnd : s0.end_old = h := holdR
          have hEnd' : s0.end_new = h' := hnewR
          have ht : (v - s0.start_old) / (s0.end_old - s0.start_old) = 1 := by
            rw [hvh, ← hEnd]
            exact div_self (ne_of_gt hLpos)
          rw [heval, himg, ht, one_mul, ← hEnd']
          ring
      · intro s hs hsfix hsv1 hsv2
        rcases List.mem_cons.mp hs with hh | hh
        · subst hh
          have hΔ := hfx s (List.mem_cons_self _ _) hsfix
          rw [heval, himg, hΔ, div_mul_cancel₀ _ (ne_of_gt hLpos)]
          ring
        · have hrb := (segsOldChain_mem_bounds holdR hlenR) s hh
          have hveq : v = s0.end_old := le_antisymm hcase (le_trans hrb.1 hsv1)
          have hseq : s.start_old = s0.end_old :=
            le_antisymm (le_trans hsv1 (le_of_eq hveq)) hrb.1
          have hsnew : s.start_new = s0.end_new := by
            cases hrest : rest with
            | nil => rw [hrest] at hh; exact absurd hh (List.not_mem_nil s)
            | cons r rr =>
              rw [hrest] at hh holdR hnewR
              rcases List.mem_cons.mp hh with h2 | h2
              · subst h2; exact hnewR.1
              · exfalso
                have hr1 : r.start_old = s0.end_old := holdR.1
                have hrl : eps9 ≤ r.end_old - r.start_old :=
                  hlenR r (by rw [hrest]; exact List.mem_cons_self r rr)
                have hb2 := (segsOldChain_mem_bounds holdR.2
                  (fun u hu => hlenR u
                    (by rw [hrest]; exact List.mem_cons_of_mem r hu))) s h2
                linarith [hb2.1, hrl, hr1, hseq, hepos]
          have ht : (v - s0.start_old) / (s0.end_old - s0.start_old) = 1 := by
            rw [hveq]
            exact div_self (ne_of_gt hLpos)
          rw [heval, himg, ht, one_mul, hveq, hseq, hsnew]
          ring
    · have hgt : s0.end_old + eps9 < v := by
        have h1 := hnc s0 (List.mem_cons_self _ _)
        rw [not_and] at h1
        exact not_le.mp (h1 (not_le.mp hcase))
      have heval : mapValueAux last? (s0 :: rest) v = mapValueAux last? rest v := by
        rw [mapValueAux, if_neg (not_lt.mpr (by rw [holdS]; linarith)),
          if_neg (not_le.mpr (by linarith))]
      have hrne : rest ≠ [] := by
        intro hr0
        rw [hr0] at holdR
        have hEnd : s0.end_old = h := holdR
        exact hcase (by rw [hEnd]; exact hv2)
      have hres := ih s0.end_old h s0.end_new h' holdR hnewR hnnR hlenR hfxR v
        (by linarith) hv2 hrne hncR
      obtain ⟨⟨ha1, ha2⟩, _, hh0, hfix0⟩ := hres
      refine ⟨⟨by rw [heval]; linarith [hnewS, hnn0], by rw [heval]; exact ha2⟩, ?_, ?_, ?_⟩
      · intro hvc
        exfalso
        linarith [hvc, holdS, hlen0, hepos, hgt]
      · intro hvh
        rw [heval]
        exact hh0 hvh
      · intro s hs hf h1 h2
        rcases List.mem_cons.mp hs with hh | hh
        · subst hh
          exact absurd h2 hcase
        · rw [heval]
          exact hfix0 s hh hf h1 h2

/-- The mapper on a well-formed mapping, from the top-level `mapValue`. -/
theorem mapValue_master (m : List MappingSegment) (c h c' h' : ℚ)
    (hold : SegsOldChain c m h) (hnew : SegsNewChain c' m h')
    (hnn : ∀ s ∈ m, 0 ≤ s.end_new - s.start_new)
    (hlen : ∀ s ∈ m, eps9 ≤ s.end_old - s.start_old)
    (hfx : ∀ s ∈ m, s.zone_type = ZoneType.fixed →
      s.end_new - s.start_new = s.end_old - s.start_old)
    (hne : m ≠ []) (v : ℚ) (hv1 : c ≤ v) (hv2 : v ≤ h)
    (hnc : ∀ s ∈ m, ¬ (s.end_old < v ∧ v ≤ s.end_old + eps9)) :
    (c' ≤ mapValue m v ∧ mapValue m v ≤ h') ∧
    (v = c → mapValue m v = c') ∧
    (v = h → mapValue m v = h') ∧
    (∀ s ∈ m, s.zone_type = ZoneType.fixed → s.start_old ≤ v → v ≤ s.end_old →
      mapValue m v = v + (s.start_new - s.start_old)) :=
  mapValueAux_master m.getLast? m c h c' h' hold hnew hnn hlen hfx v hv1 hv2 hne hnc

theorem buildSegs_old_chain (st delta : ℚ) {c h : ℚ} {zs : List Zone}
    (hch : ZonesChain c zs h) :
    ∀ cur : ℚ, SegsOldChain c (buildSegs st delta zs cur) h := by
  induction zs generalizing c with
  | nil =>
    intro cur
    simp only [ZonesChain] at hch
    simp only [buildSegs, SegsOldChain]
    exact hch
  | cons z rest ih =>
    intro cur
    obtain ⟨h1, _, h3⟩ := hch
    exact ⟨h1, ih h3 _⟩

theorem fixedTotal_cons (z : Zone) (rest : List Zone) :
    fixedTotal (z :: rest) =
      (if z.zone_type = ZoneType.fixed then z.length else 0) + fixedTotal rest := by
  cases hz : z.zone_type <;>
    simp [fixedTotal, List.filter, ZoneType.isFixed, hz]

theorem stretch_fixed_total (zs : List Zone) :
    stretchTotal zs + fixedTotal zs = (zs.map Zone.length).sum := by
  induction zs with
  | nil => simp [stretchTotal, fixedTotal]
  | cons z rest ih =>
    rw [stretchTotal_cons, fixedTotal_cons, List.map_cons, List.sum_cons, ← ih]
    cases hz : z.zone_type <;> simp [hz] <;> ring

theorem newLen_nonneg (st delta : ℚ) (hst : 0 < st) (hδ : -st ≤ delta) (z : Zone) :
    0 ≤ newLen st delta z := by
  rw [newLen]
  split
  · have hl : (0:ℚ) ≤ z.length := le_max_left 0 _
    have h1 : delta * (z.length / st) ≥ (-st) * (z.length / st) :=
      mul_le_mul_of_nonneg_right hδ (div_nonneg hl (le_of_lt hst))
    have h2 : (-st) * (z.length / st) = -z.length := by
      field_simp
      ring
    linarith
  · exact le_max_left 0 _

theorem buildSegs_nonneg (st delta : ℚ) (hst : 0 < st) (hδ : -st ≤ delta)
    (zs : List Zone) (cur : ℚ) :
    ∀ s ∈ buildSegs st delta zs cur, 0 ≤ s.end_new - s.start_new := by
  intro s hs
  obtain ⟨z, _, _, _, _, h4⟩ := buildSegs_mem st delta zs cur s hs
  rw [h4]
  exact newLen_nonneg st delta hst hδ z

theorem max_zero_ge {x b : ℚ} (hb : 0 < b) (h : b ≤ max 0 x) : b ≤ x := by
  rcases max_choice 0 x with hm | hm
  · rw [hm] at h; linarith
  · rw [hm] at h; exact h

theorem buildSegs_lens (st delta : ℚ) (zs : List Zone)
    (hz : ∀ z ∈ zs, eps9 ≤ z.length) (cur : ℚ) :
    ∀ s ∈ buildSegs st delta zs cur, eps9 ≤ s.end_old - s.start_old := by
  intro s hs
  obtain ⟨z, hzm, h1, h2, _, _⟩ := buildSegs_mem st delta zs cur s hs
  have := max_zero_ge eps9_pos (hz z hzm)
  rw [h1, h2]
  exact this

theorem buildSegs_fixed_eq (st delta : ℚ) (zs : List Zone)
    (hz : ∀ z ∈ zs, eps9 ≤ z.length) (cur : ℚ) :
    ∀ s ∈ buildSegs st delta zs cur, s.zone_type = ZoneType.fixed →
      s.end_new - s.start_new = s.end_old - s.start_old := by
  intro s hs hf
  obtain ⟨z, hzm, h1, h2, h3, h4⟩ := buildSegs_mem st delta zs cur s hs
  have hzl := max_zero_ge eps9_pos (hz z hzm)
  have hzf : z.zone_type = ZoneType.fixed := by rw [← h3]; exact hf
  have hnl : newLen st delta z = z.length := by
    rw [newLen, if_neg (fun hcc => by rw [hzf] at hcc; exact absurd hcc.1 (by simp))]
  have hzlen : z.length = z.end_old - z.start_old := by
    rw [Zone.length, max_eq_right (by linarith [eps9_pos])]
  rw [h4, hnl, hzlen, h1, h2]

theorem buildSegs_mem_rev (st delta : ℚ) (zs : List Zone) :
    ∀ (cur : ℚ) (z : Zone), z ∈ zs →
      ∃ s ∈ buildSegs st delta zs cur, s.start_old = z.start_old ∧
        s.end_old = z.end_old ∧ s.zone_type = z.zone_type ∧
        s.end_new - s.start_new = newLen st delta z := by
  induction zs with
  | nil => intro cur z hz; exact absurd hz (List.not_mem_nil z)
  | cons w rest ih =>
    intro cur z hz
    rcases List.mem_cons.mp hz with hh | hh
    · subst hh
      refine ⟨_, List.mem_cons_self _ _, rfl, rfl, rfl, ?_⟩
      ring
    · obtain ⟨s, hs, hprops⟩ := ih (cur + newLen st delta w) z hh
      exact ⟨s, List.mem_cons_of_mem _ hs, hprops⟩

theorem buildSegs_ne_nil (st delta : ℚ) (zs : List Zone) (cur : ℚ) (hz : zs ≠ []) :
    buildSegs st delta zs cur ≠ [] := by
  cases zs with
  | nil => exact absurd rfl hz
  | cons z rest => simp [buildSegs]

theorem ivfold_min_le (rest : List (ℚ × ℚ)) :
    ∀ pr : ℚ × ℚ, (rest.foldl ivUnion pr).1 ≤ pr.1 ∧
      ∀ q ∈ rest, (rest.foldl ivUnion pr).1 ≤ q.1 := by
  induction rest with
  | nil => intro pr; exact ⟨le_refl _, fun q hq => absurd hq (List.not_mem_nil q)⟩
  | cons q rest' ih =>
    intro pr
    rw [List.foldl_cons]
    obtain ⟨h1, h2⟩ := ih (ivUnion pr q)
    refine ⟨le_trans h1 (min_le_left _ _), fun w hw => ?_⟩
    rcases List.mem_cons.mp hw with hh | hh
    · subst hh; exact le_trans h1 (min_le_right _ _)
    · exact h2 w hh

theorem ivfold_max_le (rest : List (ℚ × ℚ)) :
    ∀ pr : ℚ × ℚ, pr.2 ≤ (rest.foldl ivUnion pr).2 ∧
      ∀ q ∈ rest, q.2 ≤ (rest.foldl ivUnion pr).2 := by
  induction rest with
  | nil => intro pr; exact ⟨le_refl _, fun q hq => absurd hq (List.not_mem_nil q)⟩
  | cons q rest' ih =>
    intro pr
    rw [List.foldl_cons]
    obtain ⟨h1, h2⟩ := ih (ivUnion pr q)
    refine ⟨le_trans (le_max_left _ _) h1, fun w hw => ?_⟩
    rcases List.mem_cons.mp hw with hh | hh
    · subst hh; exact le_trans (le_max_right _ _) h1
    · exact h2 w hh

theorem ivfold_min_attained (rest : List (ℚ × ℚ)) :
    ∀ pr : ℚ × ℚ, (rest.foldl ivUnion pr).1 = pr.1 ∨
      ∃ q ∈ rest, (rest.foldl ivUnion pr).1 = q.1 := by
  induction rest with
  | nil => intro pr; exact Or.inl rfl
  | cons q rest' ih =>
    intro pr
    rw [List.foldl_cons]
    rcases ih (ivUnion pr q) with hh | ⟨w, hw, hweq⟩
    · rcases min_choice pr.1 q.1 with hm | hm
      · exact Or.inl (by rw [hh]; exact hm)
      · exact Or.inr ⟨q, List.mem_cons_self _ _, by rw [hh]; exact hm⟩
    · exact Or.inr ⟨w, List.mem_cons_of_mem _ hw, hweq⟩

theorem ivfold_max_attained (rest : List (ℚ × ℚ)) :
    ∀ pr : ℚ × ℚ, (rest.foldl ivUnion pr).2 = pr.2 ∨
      ∃ q ∈ rest, (rest.foldl ivUnion pr).2 = q.2 := by
  induction rest with
  | nil => intro pr; exact Or.inl rfl
  | cons q rest' ih =>
    intro pr
    rw [List.foldl_cons]
    rcases ih (ivUnion pr q) with hh | ⟨w, hw, hweq⟩
    · rcases max_choice pr.2 q.2 with hm | hm
      · exact Or.inl (by rw [hh]; exact hm)
      · exact Or.inr ⟨q, List.mem_cons_self _ _, by rw [hh]; exact hm⟩
    · exact Or.inr ⟨w, List.mem_cons_of_mem _ hw, hweq⟩

theorem ivfold_min_ge (rest : List (ℚ × ℚ)) :
    ∀ (pr : ℚ × ℚ) (B : ℚ), B ≤ pr.1 → (∀ q ∈ rest, B ≤ q.1) →
      B ≤ (rest.foldl ivUnion pr).1 := by
  induction rest with
  | nil => intro pr B h _; exact h
  | cons q rest' ih =>
    intro pr B h hq
    rw [List.foldl_cons]
    exact ih (ivUnion pr q) B (le_min h (hq q (List.mem_cons_self _ _)))
      (fun w hw => hq w (List.mem_cons_of_mem _ hw))

theorem ivfold_max_ge (rest : List (ℚ × ℚ)) :
    ∀ (pr : ℚ × ℚ) (B : ℚ), pr.2 ≤ B → (∀ q ∈ rest, q.2 ≤ B) →
      (rest.foldl ivUnion pr).2 ≤ B := by
  induction rest with
  | nil => intro pr B h _; exact h
  | cons q rest' ih =>
    intro pr B h hq
    rw [List.foldl_cons]
    exact ih (ivUnion pr q) B (max_le h (hq q (List.mem_cons_self _ _)))
      (fun w hw => hq w (List.mem_cons_of_mem _ hw))

theorem pvfold_min_le (a : Axis) (rest : List PVertex) :
    ∀ pr : ℚ × ℚ,
      (rest.foldl (fun pr w => (min pr.1 (w.get a), max pr.2 (w.get a))) pr).1 ≤ pr.1 ∧
      ∀ w ∈ rest,
        (rest.foldl (fun pr w => (min pr.1 (w.get a), max pr.2 (w.get a))) pr).1 ≤ w.get a := by
  induction rest with
  | nil => intro pr; exact ⟨le_refl _, fun q hq => absurd hq (List.not_mem_nil q)⟩
  | cons w rest' ih =>
    intro pr
    rw [List.foldl_cons]
    obtain ⟨h1, h2⟩ := ih (min pr.1 (w.get a), max pr.2 (w.get a))
    refine ⟨le_trans h1 (min_le_left _ _), fun u hu => ?_⟩
    rcases List.mem_cons.mp hu with hh | hh
    · subst hh; exact le_trans h1 (min_le_right _ _)
    · exact h2 u hh

theorem pvfold_max_le (a : Axis) (rest : List PVertex) :
    ∀ pr : ℚ × ℚ,
      pr.2 ≤ (rest.foldl (fun pr w => (min pr.1 (w.get a), max pr.2 (w.get a))) pr).2 ∧
      ∀ w ∈ rest,
        w.get a ≤ (rest.foldl (fun pr w => (min pr.1 (w.get a), max pr.2 (w.get a))) pr).2 := by
  induction rest with
  | nil => intro pr; exact ⟨le_refl _, fun q hq => absurd hq (List.not_mem_nil q)⟩
  | cons w rest' ih =>
    intro pr
    rw [List.foldl_cons]
    obtain ⟨h1, h2⟩ := ih (min pr.1 (w.get a), max pr.2 (w.get a))
    refine ⟨le_trans (le_max_left _ _) h1, fun u hu => ?_⟩
    rcases List.mem_cons.mp hu with hh | hh
    · subst hh; exact le_trans (le_max_right _ _) h1
    · exact h2 u hh

theorem pvfold_min_attained (a : Axis) (rest : List PVertex) :
    ∀ pr : ℚ × ℚ,
      (rest.foldl (fun pr w => (min pr.1 (w.get a), max pr.2 (w.get a))) pr).1 = pr.1 ∨
      ∃ w ∈ rest,
        (rest.foldl (fun pr w => (min pr.1 (w.get a), max pr.2 (w.get a))) pr).1 = w.get a := by
  induction rest with
  | nil => intro pr; exact Or.inl rfl
  | cons w rest' ih =>
    intro pr
    rw [List.foldl_cons]
    rcases ih (min pr.1 (w.get a), max pr.2 (w.get a)) with hh | ⟨u, hu, hueq⟩
    · rcases min_choice pr.1 (w.get a) with hm | hm
      · exact Or.inl (by rw [hh]; exact hm)
      · exact Or.inr ⟨w, List.mem_cons_self _ _, by rw [hh]; exact hm⟩
    · exact Or.inr ⟨u, List.mem_cons_of_mem _ hu, hueq⟩

theorem pvfold_max_attained (a : Axis) (rest : List PVertex) :
    ∀ pr : ℚ × ℚ,
      (rest.foldl (fun pr w => (min pr.1 (w.get a), max pr.2 (w.get a))) pr).2 = pr.2 ∨
      ∃ w ∈ rest,
        (rest.foldl (fun pr w => (min pr.1 (w.get a), max pr.2 (w.get a))) pr).2 = w.get a := by
  induction rest with
  | nil => intro pr; exact Or.inl rfl
  | cons w rest' ih =>
    intro pr
    rw [List.foldl_cons]
    rcases ih (min pr.1 (w.get a), max pr.2 (w.get a)) with hh | ⟨u, hu, hueq⟩
    · rcases max_choice pr.2 (w.get a) with hm | hm
      · exact Or.inl (by rw [hh]; exact hm)
      · exact Or.inr ⟨w, List.mem_cons_self _ _, by rw [hh]; exact hm⟩
    · exact Or.inr ⟨u, List.mem_cons_of_mem _ hu, hueq⟩

theorem pvfold_min_ge (a : Axis) (rest : List PVertex) :
    ∀ (pr : ℚ × ℚ) (B : ℚ), B ≤ pr.1 → (∀ w ∈ rest, B ≤ w.get a) →
      B ≤ (rest.foldl (fun pr w => (min pr.1 (w.get a), max pr.2 (w.get a))) pr).1 := by
  induction rest with
  | nil => intro pr B h _; exact h
  | cons w rest' ih =>
    intro pr B h hq
    rw [List.foldl_cons]
    exact ih _ B (le_min h (hq w (List.mem_cons_self _ _)))
      (fun u hu => hq u (List.mem_cons_of_mem _ hu))

theorem pvfold_max_ge (a : Axis) (rest : List PVertex) :
    ∀ (pr : ℚ × ℚ) (B : ℚ), pr.2 ≤ B → (∀ w ∈ rest, w.get a ≤ B) →
      (rest.foldl (fun pr w => (min pr.1 (w.get a), max pr.2 (w.get a))) pr).2 ≤ B := by
  induction rest with
  | nil => intro pr B h _; exact h
  | cons w rest' ih =>
    intro pr B h hq
    rw [List.foldl_cons]
    exact ih _ B (max_le h (hq w (List.mem_cons_self _ _)))
      (fun u hu => hq u (List.mem_cons_of_mem _ hu))

theorem PVertex.set_ok (a : Axis) (c : ℚ) (v : PVertex) : (v.set a c).ok = v.ok := by
  cases a <;> rfl

theorem PVertex.set_bulge (a : Axis) (c : ℚ) (v : PVertex) : (v.set a c).bulge = v.bulge := by
  cases a <;> rfl

theorem rat_min_add (x y t : ℚ) : min (x + t) (y + t) = min x y + t := by
  rcases le_total x y with h | h
  · rw [min_eq_left h, min_eq_left (by linarith)]
  · rw [min_eq_right h, min_eq_right (by linarith)]

theorem rat_max_add (x y t : ℚ) : max (x + t) (y + t) = max x y + t := by
  rcases le_total x y with h | h
  · rw [max_eq_right h, max_eq_right (by linarith)]
  · rw [max_eq_left h, max_eq_left (by linarith)]

theorem mapVerts_all_ok (m : List MappingSegment) (a : Axis) (vs : List PVertex)
    (h : ∀ v ∈ vs, v.ok = true) :
    mapVerts m a vs = vs.map (fun v => v.set a (mapValue m (v.get a))) := by
  induction vs with
  | nil => rfl
  | cons v rest ih =>
    rw [mapVerts, if_pos (h v (List.mem_cons_self _ _)), List.map_cons,
      ih (fun u hu => h u (List.mem_cons_of_mem _ hu))]

theorem simple_poly_all {vs : List PVertex} (h : ∀ v ∈ vs, v.ok = true ∧ v.bulge = 0) :
    vs.all (fun v => v.ok && decide (v.bulge = 0)) = true := by
  rw [List.all_eq_true]
  intro v hv
  obtain ⟨h1, h2⟩ := h v hv
  simp [h1, h2]

theorem simple_has_interval (a : Axis) {e : Entity} (h : SimpleEntity e) :
    ∃ p, entityInterval a e = some p := by
  cases e with
  | line s t => exact ⟨_, rfl⟩
  | point p0 => exact ⟨_, rfl⟩
  | circle c r => exact ⟨_, rfl⟩
  | polyline vs =>
    obtain ⟨hne, hall⟩ := h
    cases vs with
    | nil => exact absurd rfl hne
    | cons v rest =>
      refine ⟨(rest.foldl (fun pr w => (min pr.1 (w.get a), max pr.2 (w.get a)))
          (v.get a, v.get a)), ?_⟩
      simp only [entityInterval]
      rw [polyInterval.eq_def, if_pos (simple_poly_all hall)]
  | spline ctrl fit => exact False.elim h
  | arc c r sa ea => exact False.elim h
  | other p0 => exact False.elim h

theorem extents_mem_bounds {a : Axis} {d : List Entity} {lo hi : ℚ}
    (hext : drawingExtents a d = some (lo, hi)) :
    ∀ e ∈ d, ∀ p, entityInterval a e = some p → lo ≤ p.1 ∧ p.2 ≤ hi := by
  intro e he p hp
  have hmem : p ∈ d.filterMap (entityInterval a) := List.mem_filterMap.mpr ⟨e, he, hp⟩
  rw [drawingExtents] at hext
  cases hfm : d.filterMap (entityInterval a) with
  | nil => rw [hfm] at hext; cases hext
  | cons iv rest =>
    rw [hfm] at hext hmem
    rw [Option.some.injEq] at hext
    have h1 := ivfold_min_le rest iv
    have h2 := ivfold_max_le rest iv
    have hlo : (rest.foldl ivUnion iv).1 = lo := by rw [hext]
    have hhi : (rest.foldl ivUnion iv).2 = hi := by rw [hext]
    rcases List.mem_cons.mp hmem with hh | hh
    · subst hh
      exact ⟨hlo ▸ h1.1, hhi ▸ h2.1⟩
    · exact ⟨hlo ▸ h1.2 p hh, hhi ▸ h2.2 p hh⟩

theorem extents_min_attained {a : Axis} {d : List Entity} {lo hi : ℚ}
    (hext : drawingExtents a d = some (lo, hi)) :
    ∃ e ∈ d, ∃ p, entityInterval a e = some p ∧ p.1 = lo := by
  rw [drawingExtents] at hext
  cases hfm : d.filterMap (entityInterval a) with
  | nil => rw [hfm] at hext; cases hext
  | cons iv rest =>
    rw [hfm] at hext
    rw [Option.some.injEq] at hext
    have hlo : (rest.foldl ivUnion iv).1 = lo := by rw [hext]
    rcases ivfold_min_attained rest iv with hh | ⟨q, hq, hqe⟩
    · have hm2 : iv ∈ d.filterMap (entityInterval a) := by
        rw [hfm]; exact List.mem_cons_self _ _
      obtain ⟨e, he, hei⟩ := List.mem_filterMap.mp hm2
      exact ⟨e, he, iv, hei, by rw [← hh, hlo]⟩
    · have hm2 : q ∈ d.filterMap (entityInterval a) := by
        rw [hfm]; exact List.mem_cons_of_mem _ hq
      obtain ⟨e, he, hei⟩ := List.mem_filterMap.mp hm2
      exact ⟨e, he, q, hei, by rw [← hqe, hlo]⟩

theorem extents_max_attained {a : Axis} {d : List Entity} {lo hi : ℚ}
    (hext : drawingExtents a d = some (lo, hi)) :
    ∃ e ∈ d, ∃ p, entityInterval a e = some p ∧ p.2 = hi := by
  rw [drawingExtents] at hext
  cases hfm : d.filterMap (entityInterval a) with
  | nil => rw [hfm] at hext; cases hext
  | cons iv rest =>
    rw [hfm] at hext
    rw [Option.some.injEq] at hext
    have hhi : (rest.foldl ivUnion iv).2 = hi := by rw [hext]
    rcases ivfold_max_attained rest iv with hh | ⟨q, hq, hqe⟩
    · have hm2 : iv ∈ d.filterMap (entityInterval a) := by
        rw [hfm]; exact List.mem_cons_self _ _
      obtain ⟨e, he, hei⟩ := List.mem_filterMap.mp hm2
      exact ⟨e, he, iv, hei, by rw [← hh, hhi]⟩
    · have hm2 : q ∈ d.filterMap (entityInterval a) := by
        rw [hfm]; exact List.mem_cons_of_mem _ hq
      obtain ⟨e, he, hei⟩ := List.mem_filterMap.mp hm2
      exact ⟨e, he, q, hei, by rw [← hqe, hhi]⟩

theorem extents_eq_of_bounds (a : Axis) (d : List Entity) (L H : ℚ)
    (hb : ∀ p ∈ d.filterMap (entityInterval a), L ≤ p.1 ∧ p.2 ≤ H)
    (hA : ∃ p ∈ d.filterMap (entityInterval a), p.1 = L)
    (hB : ∃ p ∈ d.filterMap (entityInterval a), p.2 = H) :
    drawingExtents a d = some (L, H) := by
  obtain ⟨pA, hpA, hpAe⟩ := hA
  obtain ⟨pB, hpB, hpBe⟩ := hB
  rw [drawingExtents]
  cases hfm : d.filterMap (entityInterval a) with
  | nil => rw [hfm] at hpA; exact absurd hpA (List.not_mem_nil _)
  | cons iv rest =>
    rw [hfm] at hpA hpB hb
    have hbh := hb iv (List.mem_cons_self _ _)
    have h1 := ivfold_min_le rest iv
    have h2 := ivfold_max_le rest iv
    have hge : L ≤ (rest.foldl ivUnion iv).1 :=
      ivfold_min_ge rest iv L hbh.1 (fun q hq => (hb q (List.mem_cons_of_mem _ hq)).1)
    have hle : (rest.foldl ivUnion iv).2 ≤ H :=
      ivfold_max_ge rest iv H hbh.2 (fun q hq => (hb q (List.mem_cons_of_mem _ hq)).2)
    have hle2 : (rest.foldl ivUnion iv).1 ≤ L := by
      rcases List.mem_cons.mp hpA with hh | hh
      · rw [← hpAe, hh]; exact h1.1
      · rw [← hpAe]; exact h1.2 pA hh
    have hge2 : H ≤ (rest.foldl ivUnion iv).2 := by
      rcases List.mem_cons.mp hpB with hh | hh
      · rw [← hpBe, hh]; exact h2.1
      · rw [← hpBe]; exact h2.2 pB hh
    have hpair : rest.foldl ivUnion iv = (L, H) :=
      Prod.ext (le_antisymm hle2 hge) (le_antisymm hle hge2)
    show some (rest.foldl ivUnion iv) = some (L, H)
    rw [hpair]

theorem fixedTotal_nonneg (zs : List Zone) : 0 ≤ fixedTotal zs := by
  rw [fixedTotal]
  apply List.sum_nonneg
  intro x hx
  obtain ⟨z, _, hz⟩ := List.mem_map.mp hx
  rw [← hz, Zone.length]
  exact le_max_left 0 _

theorem pvfold_shift (a : Axis) (t : ℚ) (rest : List PVertex) :
    ∀ x y : ℚ,
      ((rest.map (fun v => v.set a (v.get a + t))).foldl
          (fun pr w => (min pr.1 (w.get a), max pr.2 (w.get a))) (x + t, y + t)) =
        ((rest.foldl (fun pr w => (min pr.1 (w.get a), max pr.2 (w.get a))) (x, y)).1 + t,
         (rest.foldl (fun pr w => (min pr.1 (w.get a), max pr.2 (w.get a))) (x, y)).2 + t) := by
  induction rest with
  | nil => intro x y; rfl
  | cons w ws ih =>
    intro x y
    rw [List.map_cons, List.foldl_cons, List.foldl_cons]
    simp only [PVertex.get_of_set]
    rw [rat_min_add, rat_max_add]
    exact ih (min x (w.get a)) (max y (w.get a))

theorem mapEntity_simple (m : List MappingSegment) (a : Axis) (e : Entity)
    (h : SimpleEntity e) : SimpleEntity (mapEntity m a e) := by
  cases e with
  | line s t => trivial
  | point p0 => trivial
  | circle c r => exact h
  | polyline vs =>
    obtain ⟨hne, hall⟩ := h
    simp only [mapEntity]
    rw [mapVerts_all_ok m a vs (fun v hv => (hall v hv).1)]
    refine ⟨fun hc => hne (List.map_eq_nil_iff.mp hc), ?_⟩
    intro v hv
    obtain ⟨w, hw, hweq⟩ := List.mem_map.mp hv
    rw [← hweq, PVertex.set_ok, PVertex.set_bulge]
    exact hall w hw
  | spline ctrl fit => exact False.elim h
  | arc c r sa ea => exact False.elim h
  | other p0 => exact False.elim h

theorem simple_translate_interval (a : Axis) (t : ℚ) {e : Entity} (hs : SimpleEntity e)
    {p : ℚ × ℚ} (hint : entityInterval a e = some p) :
    ∃ e2, translateEntityQ a t e = some e2 ∧
      entityInterval a e2 = some (p.1 + t, p.2 + t) := by
  cases e with
  | line s u =>
    refine ⟨_, rfl, ?_⟩
    simp only [entityInterval, Option.some.injEq] at hint
    simp only [entityInterval, translatePt, Pt.get_set, Option.some.injEq]
    rw [rat_min_add, rat_max_add, ← hint]
  | point p0 =>
    refine ⟨_, rfl, ?_⟩
    simp only [entityInterval, Option.some.injEq] at hint
    simp only [entityInterval, translatePt, Pt.get_set, Option.some.injEq]
    rw [← hint]
  | circle c r =>
    refine ⟨_, rfl, ?_⟩
    simp only [entityInterval, Option.some.injEq] at hint
    simp only [entityInterval, translatePt, Pt.get_set, Option.some.injEq]
    rw [← hint]
    refine Prod.ext ?_ ?_
    · show c.get a + t - r = (c.get a - r) + t
      ring
    · show c.get a + t + r = (c.get a + r) + t
      ring
  | polyline vs =>
    obtain ⟨hne, hall⟩ := hs
    have hok : vs.all (fun u => u.ok) = true :=
      List.all_eq_true.mpr (fun u hu => (hall u hu).1)
    have hall2 : ∀ u ∈ vs.map (fun u => u.set a (u.get a + t)), u.ok = true ∧ u.bulge = 0 := by
      intro u hu
      obtain ⟨w, hw, hweq⟩ := List.mem_map.mp hu
      rw [← hweq, PVertex.set_ok, PVertex.set_bulge]
      exact hall w hw
    refine ⟨Entity.polyline (vs.map (fun u => u.set a (u.get a + t))), ?_, ?_⟩
    · simp only [translateEntityQ]
      rw [if_pos hok]
    · cases vs with
      | nil => exact absurd rfl hne
      | cons v rest =>
        have h3 : entityInterval a (Entity.polyline (v :: rest)) =
            some (rest.foldl (fun pr w => (min pr.1 (w.get a), max pr.2 (w.get a)))
              (v.get a, v.get a)) := by
          simp only [entityInterval]
          rw [polyInterval.eq_def, if_pos (simple_poly_all hall)]
        rw [h3, Option.some.injEq] at hint
        have hsh := pvfold_shift a t rest (v.get a) (v.get a)
        rw [hint] at hsh
        simp only [entityInterval]
        rw [List.map_cons] at hall2
        rw [List.map_cons, polyInterval.eq_def,
          if_pos (simple_poly_all (fun u hu => hall2 u hu))]
        show some _ = some (p.1 + t, p.2 + t)
        rw [Option.some.injEq]
        calc (rest.map (fun u => u.set a (u.get a + t))).foldl
              (fun pr w => (min pr.1 (w.get a), max pr.2 (w.get a)))
              ((v.set a (v.get a + t)).get a, (v.set a (v.get a + t)).get a)
            = (rest.map (fun u => u.set a (u.get a + t))).foldl
              (fun pr w => (min pr.1 (w.get a), max pr.2 (w.get a)))
              (v.get a + t, v.get a + t) := by rw [PVertex.get_of_set]
          _ = (p.1 + t, p.2 + t) := hsh
  | spline ctrl fit => exact False.elim hs
  | arc c r sa ea => exact False.elim hs
  | other p0 => exact False.elim hs

set_option maxHeartbeats 2000000 in
theorem mapped_entity_interval (a : Axis) (m : List MappingSegment) (lo hi target : ℚ)
    (hold : SegsOldChain lo m hi) (hnew : SegsNewChain lo m (lo + target))
    (hnn : ∀ s ∈ m, 0 ≤ s.end_new - s.start_new)
    (hlen : ∀ s ∈ m, eps9 ≤ s.end_old - s.start_old)
    (hfx : ∀ s ∈ m, s.zone_type = ZoneType.fixed →
      s.end_new - s.start_new = s.end_old - s.start_old)
    (hne : m ≠ []) (e : Entity) (hs : SimpleEntity e)
    (p : ℚ × ℚ) (hint : entityInterval a e = some p) (hp1 : lo ≤ p.1) (hp2 : p.2 ≤ hi)
    (hnc : ∀ v ∈ entityObs a e, ∀ s ∈ m, ¬ (s.end_old < v ∧ v ≤ s.end_old + eps9))
    (hcov : ∀ c r, e = Entity.circle c r → 0 < r →
      ∃ s ∈ m, s.zone_type = ZoneType.fixed ∧ s.start_old ≤ c.get a - r ∧
        c.get a + r ≤ s.end_old) :
    ∃ q, entityInterval a (mapEntity m a e) = some q ∧
      lo ≤ q.1 ∧ q.2 ≤ lo + target ∧
      (p.1 = lo → q.1 = lo) ∧ (p.2 = hi → q.2 = lo + target) := by
  have key : ∀ v : ℚ, lo ≤ v → v ≤ hi →
      (∀ s ∈ m, ¬ (s.end_old < v ∧ v ≤ s.end_old + eps9)) →
      (lo ≤ mapValue m v ∧ mapValue m v ≤ lo + target) ∧
      (v = lo → mapValue m v = lo) ∧
      (v = hi → mapValue m v = lo + target) ∧
      (∀ s ∈ m, s.zone_type = ZoneType.fixed → s.start_old ≤ v → v ≤ s.end_old →
        mapValue m v = v + (s.start_new - s.start_old)) :=
    fun v h1 h2 h3 =>
      mapValue_master m lo hi lo (lo + target) hold hnew hnn hlen hfx hne v h1 h2 h3
  cases e with
  | line s t =>
    simp only [entityInterval, Option.some.injEq] at hint
    have hpe1 : p.1 = min (s.get a) (t.get a) := by rw [← hint]
    have hpe2 : p.2 = max (s.get a) (t.get a) := by rw [← hint]
    have hminlo : lo ≤ min (s.get a) (t.get a) := by rw [← hpe1]; exact hp1
    have hmaxhi : max (s.get a) (t.get a) ≤ hi := by rw [← hpe2]; exact hp2
    have hsv1 : lo ≤ s.get a := le_trans hminlo (min_le_left _ _)
    have hsv2 : s.get a ≤ hi := le_trans (le_max_left _ _) hmaxhi
    have htv1 : lo ≤ t.get a := le_trans hminlo (min_le_right _ _)
    have htv2 : t.get a ≤ hi := le_trans (le_max_right _ _) hmaxhi
    have kS := key (s.get a) hsv1 hsv2 (hnc _ (by simp [entityObs]))
    have kT := key (t.get a) htv1 htv2 (hnc _ (by simp [entityObs]))
    refine ⟨(min (mapValue m (s.get a)) (mapValue m (t.get a)),
      max (mapValue m (s.get a)) (mapValue m (t.get a))), ?_, ?_, ?_, ?_, ?_⟩
    · simp only [mapEntity, entityInterval, mapPt, Pt.get_set]
    · exact le_min kS.1.1 kT.1.1
    · exact max_le kS.1.2 kT.1.2
    · intro hplo
      have hmin : min (s.get a) (t.get a) = lo := by rw [← hpe1]; exact hplo
      have hge : lo ≤ min (mapValue m (s.get a)) (mapValue m (t.get a)) :=
        le_min kS.1.1 kT.1.1
      rcases min_choice (s.get a) (t.get a) with hm | hm
      · have hF : mapValue m (s.get a) = lo := kS.2.1 (by rw [← hm]; exact hmin)
        exact le_antisymm (le_trans (min_le_left _ _) (le_of_eq hF)) hge
      · have hF : mapValue m (t.get a) = lo := kT.2.1 (by rw [← hm]; exact hmin)
        exact le_antisymm (le_trans (min_le_right _ _) (le_of_eq hF)) hge
    · intro hphi
      have hmax : max (s.get a) (t.get a) = hi := by rw [← hpe2]; exact hphi
      have hle2 : max (mapValue m (s.get a)) (mapValue m (t.get a)) ≤ lo + target :=
        max_le kS.1.2 kT.1.2
      rcases max_choice (s.get a) (t.get a) with hm | hm
      · have hF : mapValue m (s.get a) = lo + target := kS.2.2.1 (by rw [← hm]; exact hmax)
        exact le_antisymm hle2 (le_trans (le_of_eq hF.symm) (le_max_left _ _))
      · have hF : mapValue m (t.get a) = lo + target := kT.2.2.1 (by rw [← hm]; exact hmax)
        exact le_antisymm hle2 (le_trans (le_of_eq hF.symm) (le_max_right _ _))
  | point p0 =>
    simp only [entityInterval, Option.some.injEq] at hint
    have hpe1 : p.1 = p0.get a := by rw [← hint]
    have hpe2 : p.2 = p0.get a := by rw [← hint]
    have h1 : lo ≤ p0.get a := by rw [← hpe1]; exact hp1
    have h2 : p0.get a ≤ hi := by rw [← hpe2]; exact hp2
    have kP := key (p0.get a) h1 h2 (hnc _ (by simp [entityObs]))
    refine ⟨(mapValue m (p0.get a), mapValue m (p0.get a)), ?_, kP.1.1, kP.1.2, ?_, ?_⟩
    · simp only [mapEntity, entityInterval, mapPt, Pt.get_set]
    · intro hplo
      exact kP.2.1 (by rw [← hpe1]; exact hplo)
    · intro hphi
      exact kP.2.2.1 (by rw [← hpe2]; exact hphi)
  | circle c r =>
    have hr : (0:ℚ) ≤ r := hs
    simp only [entityInterval, Option.some.injEq] at hint
    have hpe1 : p.1 = c.get a - r := by rw [← hint]
    have hpe2 : p.2 = c.get a + r := by rw [← hint]
    have h1 : lo ≤ c.get a - r := by rw [← hpe1]; exact hp1
    have h2 : c.get a + r ≤ hi := by rw [← hpe2]; exact hp2
    have hc1 : lo ≤ c.get a := by linarith
    have hc2 : c.get a ≤ hi := by linarith
    have kC := key (c.get a) hc1 hc2 (hnc _ (by simp [entityObs]))
    refine ⟨(mapValue m (c.get a) - r, mapValue m (c.get a) + r), ?_, ?_, ?_, ?_, ?_⟩
    · simp only [mapEntity, entityInterval, mapPt, Pt.get_set]
    · show lo ≤ mapValue m (c.get a) - r
      rcases eq_or_lt_of_le hr with hr0 | hrpos
      · rw [← hr0, sub_zero]
        exact kC.1.1
      · obtain ⟨s, hsm, hsfix, hcov1, hcov2⟩ := hcov c r rfl hrpos
        have hsb := segsNewChain_mem_bounds hnew hnn s hsm
        have hF := kC.2.2.2 s hsm hsfix (by linarith) (by linarith)
        rw [hF]
        linarith [hsb.1]
    · show mapValue m (c.get a) + r ≤ lo + target
      rcases eq_or_lt_of_le hr with hr0 | hrpos
      · rw [← hr0, add_zero]
        exact kC.1.2
      · obtain ⟨s, hsm, hsfix, hcov1, hcov2⟩ := hcov c r rfl hrpos
        have hsb := segsNewChain_mem_bounds hnew hnn s hsm
        have hsfx2 := hfx s hsm hsfix
        have hF := kC.2.2.2 s hsm hsfix (by linarith) (by linarith)
        rw [hF]
        linarith [hsb.2, hsfx2]
    · intro hplo
      show mapValue m (c.get a) - r = lo
      have hcr : c.get a - r = lo := by rw [← hpe1]; exact hplo
      rcases eq_or_lt_of_le hr with hr0 | hrpos
      · have hceq : c.get a = lo := by rw [← hr0] at hcr; linarith
        have hF : mapValue m (c.get a) = lo := kC.2.1 hceq
        rw [hF, ← hr0, sub_zero]
      · obtain ⟨s, hsm, hsfix, hcov1, hcov2⟩ := hcov c r rfl hrpos
        have hsbo := segsOldChain_mem_bounds hold hlen s hsm
        have hsstart : s.start_old = lo := le_antisymm (by linarith [hcov1, hcr]) hsbo.1
        have hsnew : s.start_new = lo := segs_start_eq hold hnew hlen s hsm hsstart
        have hF := kC.2.2.2 s hsm hsfix (by linarith) (by linarith)
        rw [hF]
        linarith [hsstart, hsnew, hcr]
    · intro hphi
      show mapValue m (c.get a) + r = lo + target
      have hcr : c.get a + r = hi := by rw [← hpe2]; exact hphi
      rcases eq_or_lt_of_le hr with hr0 | hrpos
      · have hceq : c.get a = hi := by rw [← hr0] at hcr; linarith
        have hF : mapValue m (c.get a) = lo + target := kC.2.2.1 hceq
        rw [hF, ← hr0, add_zero]
      · obtain ⟨s, hsm, hsfix, hcov1, hcov2⟩ := hcov c r rfl hrpos
        have hsbo := segsOldChain_mem_bounds hold hlen s hsm
        have hsend : s.end_old = hi := le_antisymm hsbo.2 (by linarith [hcov2, hcr])
        have hsendnew : s.end_new = lo + target := segs_end_eq hold hnew hlen s hsm hsend
        have hsfx2 := hfx s hsm hsfix
        have hF := kC.2.2.2 s hsm hsfix (by linarith) (by linarith)
        rw [hF]
        linarith [hsend, hsendnew, hsfx2, hcr]
  | polyline vs =>
    obtain ⟨hvne, hall⟩ := hs
    cases vs with
    | nil => exact absurd rfl hvne
    | cons v rest =>
      have h3 : entityInterval a (Entity.polyline (v :: rest)) =
          some (rest.foldl (fun pr w => (min pr.1 (w.get a), max pr.2 (w.get a)))
            (v.get a, v.get a)) := by
        simp only [entityInterval]
        rw [polyInterval.eq_def, if_pos (simple_poly_all hall)]
      have hint2 : (rest.foldl (fun pr w => (min pr.1 (w.get a), max pr.2 (w.get a)))
          (v.get a, v.get a)) = p := by
        rw [h3, Option.some.injEq] at hint
        exact hint
      have hlo : lo ≤ (rest.foldl (fun pr w => (min pr.1 (w.get a), max pr.2 (w.get a)))
          (v.get a, v.get a)).1 := by rw [hint2]; exact hp1
      have hhi : (rest.foldl (fun pr w => (min pr.1 (w.get a), max pr.2 (w.get a)))
          (v.get a, v.get a)).2 ≤ hi := by rw [hint2]; exact hp2
      have hminle := pvfold_min_le a rest (v.get a, v.get a)
      have hmaxle := pvfold_max_le a rest (v.get a, v.get a)
      have hcoord : ∀ w ∈ (v :: rest), lo ≤ w.get a ∧ w.get a ≤ hi := by
        intro w hw
        rcases List.mem_cons.mp hw with hh | hh
        · subst hh
          exact ⟨le_trans hlo hminle.1, le_trans hmaxle.1 hhi⟩
        · exact ⟨le_trans hlo (hminle.2 w hh), le_trans (hmaxle.2 w hh) hhi⟩
      have hobs : ∀ w ∈ (v :: rest), w.get a ∈ entityObs a (Entity.polyline (v :: rest)) := by
        intro w hw
        simp only [entityObs]
        exact List.mem_map_of_mem _ hw
      have hkey : ∀ w ∈ (v :: rest),
          (lo ≤ mapValue m (w.get a) ∧ mapValue m (w.get a) ≤ lo + target) ∧
          (w.get a = lo → mapValue m (w.get a) = lo) ∧
          (w.get a = hi → mapValue m (w.get a) = lo + target) := by
        intro w hw
        have hk := key (w.get a) (hcoord w hw).1 (hcoord w hw).2 (hnc _ (hobs w hw))
        exact ⟨hk.1, hk.2.1, hk.2.2.1⟩
      have hmapv : mapVerts m a (v :: rest) =
          (v :: rest).map (fun u => u.set a (mapValue m (u.get a))) :=
        mapVerts_all_ok m a (v :: rest) (fun u hu => (hall u hu).1)
      have hall2 : ∀ u ∈ (v :: rest).map (fun u => u.set a (mapValue m (u.get a))),
          u.ok = true ∧ u.bulge = 0 := by
        intro u hu
        obtain ⟨w, hw, hweq⟩ := List.mem_map.mp hu
        rw [← hweq, PVertex.set_ok, PVertex.set_bulge]
        exact hall w hw
      have hmmem : ∀ u ∈ rest.map (fun u => u.set a (mapValue m (u.get a))),
          lo ≤ u.get a ∧ u.get a ≤ lo + target := by
        intro u hu
        obtain ⟨w, hw, hweq⟩ := List.mem_map.mp hu
        rw [← hweq, PVertex.get_of_set]
        exact (hkey w (List.mem_cons_of_mem _ hw)).1
      refine ⟨((rest.map (fun u => u.set a (mapValue m (u.get a)))).foldl
          (fun pr w => (min pr.1 (w.get a), max pr.2 (w.get a)))
          (mapValue m (v.get a), mapValue m (v.get a))), ?_, ?_, ?_, ?_, ?_⟩
      · simp only [mapEntity, entityInterval]
        rw [hmapv]
        rw [List.map_cons] at hall2
        rw [List.map_cons, polyInterval.eq_def,
          if_pos (simple_poly_all (fun u hu => hall2 u hu))]
        show some _ = some _
        rw [Option.some.injEq, PVertex.get_of_set]
      · exact pvfold_min_ge a (rest.map (fun u => u.set a (mapValue m (u.get a))))
          (mapValue m (v.get a), mapValue m (v.get a)) lo
          (hkey v (List.mem_cons_self _ _)).1.1
          (fun u hu => (hmmem u hu).1)
      · exact pvfold_max_ge a (rest.map (fun u => u.set a (mapValue m (u.get a))))
          (mapValue m (v.get a), mapValue m (v.get a)) (lo + target)
          (hkey v (List.mem_cons_self _ _)).1.2
          (fun u hu => (hmmem u hu).2)
      · intro hplo
        have hge := pvfold_min_ge a (rest.map (fun u => u.set a (mapValue m (u.get a))))
          (mapValue m (v.get a), mapValue m (v.get a)) lo
          (hkey v (List.mem_cons_self _ _)).1.1
          (fun u hu => (hmmem u hu).1)
        have hminle2 := pvfold_min_le a (rest.map (fun u => u.set a (mapValue m (u.get a))))
          (mapValue m (v.get a), mapValue m (v.get a))
        rcases pvfold_min_attained a rest (v.get a, v.get a) with hh | ⟨w, hw, hweq⟩
        · have hveq : v.get a = lo := by
            rw [← hplo, ← hint2]
            exact hh.symm
          have hF : mapValue m (v.get a) = lo := (hkey v (List.mem_cons_self _ _)).2.1 hveq
          exact le_antisymm (le_trans hminle2.1 (le_of_eq hF)) hge
        · have hweq2 : w.get a = lo := by
            rw [← hplo, ← hint2]
            exact hweq.symm
          have hF : mapValue m (w.get a) = lo :=
            (hkey w (List.mem_cons_of_mem _ hw)).2.1 hweq2
          have humem : w.set a (mapValue m (w.get a)) ∈
              rest.map (fun u => u.set a (mapValue m (u.get a))) :=
            List.mem_map_of_mem _ hw
          have hle3 := hminle2.2 _ humem
          rw [PVertex.get_of_set, hF] at hle3
          exact le_antisymm hle3 hge
      · intro hphi
        have hle4 := pvfold_max_ge a (rest.map (fun u => u.set a (mapValue m (u.get a))))
          (mapValue m (v.get a), mapValue m (v.get a)) (lo + target)
          (hkey v (List.mem_cons_self _ _)).1.2
          (fun u hu => (hmmem u hu).2)
        have hmaxle2 := pvfold_max_le a (rest.map (fun u => u.set a (mapValue m (u.get a))))
          (mapValue m (v.get a), mapValue m (v.get a))
        rcases pvfold_max_attained a rest (v.get a, v.get a) with hh | ⟨w, hw, hweq⟩
        · have hveq : v.get a = hi := by
            rw [← hphi, ← hint2]
            exact hh.symm
          have hF : mapValue m (v.get a) = lo + target :=
            (hkey v (List.mem_cons_self _ _)).2.2 hveq
          exact le_antisymm hle4 (le_trans (le_of_eq hF.symm) hmaxle2.1)
        · have hweq2 : w.get a = hi := by
            rw [← hphi, ← hint2]
            exact hweq.symm
          have hF : mapValue m (w.get a) = lo + target :=
            (hkey w (List.mem_cons_of_mem _ hw)).2.2 hweq2
          have humem : w.set a (mapValue m (w.get a)) ∈
              rest.map (fun u => u.set a (mapValue m (u.get a))) :=
            List.mem_map_of_mem _ hw
          have hge3 := hmaxle2.2 _ humem
          rw [PVertex.get_of_set, hF] at hge3
          exact le_antisymm hle4 hge3
  | spline ctrl fit => exact False.elim hs
  | arc c2 r2 sa ea => exact False.elim hs
  | other p0 => exact False.elim hs

theorem mapped_extents (a : Axis) (d : List Entity) (lo hi target : ℚ)
    (m : List MappingSegment)
    (hsimple : ∀ e ∈ d, SimpleEntity e)
    (hext : drawingExtents a d = some (lo, hi))
    (hold : SegsOldChain lo m hi) (hnew : SegsNewChain lo m (lo + target))
    (hnn : ∀ s ∈ m, 0 ≤ s.end_new - s.start_new)
    (hlen : ∀ s ∈ m, eps9 ≤ s.end_old - s.start_old)
    (hfx : ∀ s ∈ m, s.zone_type = ZoneType.fixed →
      s.end_new - s.start_new = s.end_old - s.start_old)
    (hne : m ≠ [])
    (hnc : ∀ e ∈ d, ∀ v ∈ entityObs a e, ∀ s ∈ m, ¬ (s.end_old < v ∧ v ≤ s.end_old + eps9))
    (hcov : ∀ e ∈ d, ∀ c r, e = Entity.circle c r → 0 < r →
      ∃ s ∈ m, s.zone_type = ZoneType.fixed ∧ s.start_old ≤ c.get a - r ∧
        c.get a + r ≤ s.end_old) :
    drawingExtents a (applyMapping m a d) = some (lo, lo + target) := by
  have hper : ∀ e ∈ d, ∃ p q, entityInterval a e = some p ∧
      entityInterval a (mapEntity m a e) = some q ∧
      lo ≤ q.1 ∧ q.2 ≤ lo + target ∧
      (p.1 = lo → q.1 = lo) ∧ (p.2 = hi → q.2 = lo + target) := by
    intro e he
    obtain ⟨p, hp⟩ := simple_has_interval a (hsimple e he)
    obtain ⟨hb1, hb2⟩ := extents_mem_bounds hext e he p hp
    obtain ⟨q, hq, hq1, hq2, hq3, hq4⟩ :=
      mapped_entity_interval a m lo hi target hold hnew hnn hlen hfx hne e
        (hsimple e he) p hp hb1 hb2 (hnc e he) (hcov e he)
    exact ⟨p, q, hp, hq, hq1, hq2, hq3, hq4⟩
  apply extents_eq_of_bounds
  · intro q hq
    rw [List.mem_filterMap] at hq
    obtain ⟨e2, he2, hei⟩ := hq
    rw [applyMapping, List.mem_map] at he2
    obtain ⟨e, he, heq⟩ := he2
    obtain ⟨p, q0, hp, hq0, hq1, hq2, _, _⟩ := hper e he
    rw [← heq, hq0, Option.some.injEq] at hei
    rw [← hei]
    exact ⟨hq1, hq2⟩
  · obtain ⟨e, he, p, hp, hp1⟩ := extents_min_attained hext
    obtain ⟨p0, q0, hp0, hq0, _, _, hq3, _⟩ := hper e he
    have hpp : p0 = p := by rw [hp] at hp0; exact (Option.some.inj hp0).symm
    refine ⟨q0, ?_, hq3 (by rw [hpp, hp1])⟩
    rw [List.mem_filterMap]
    refine ⟨mapEntity m a e, ?_, hq0⟩
    rw [applyMapping]
    exact List.mem_map_of_mem _ he
  · obtain ⟨e, he, p, hp, hp2⟩ := extents_max_attained hext
    obtain ⟨p0, q0, hp0, hq0, _, _, _, hq4⟩ := hper e he
    have hpp : p0 = p := by rw [hp] at hp0; exact (Option.some.inj hp0).symm
    refine ⟨q0, ?_, hq4 (by rw [hpp, hp2])⟩
    rw [List.mem_filterMap]
    refine ⟨mapEntity m a e, ?_, hq0⟩
    rw [applyMapping]
    exact List.mem_map_of_mem _ he

theorem translated_extents (a : Axis) (t : ℚ) (d : List Entity) (L H : ℚ)
    (hsimple : ∀ e ∈ d, SimpleEntity e)
    (hext : drawingExtents a d = some (L, H)) :
    drawingExtents a (d.map (fun e => (translateEntityQ a t e).getD e)) =
      some (L + t, H + t) := by
  have hper : ∀ e ∈ d, ∃ p, entityInterval a e = some p ∧
      entityInterval a ((translateEntityQ a t e).getD e) = some (p.1 + t, p.2 + t) := by
    intro e he
    obtain ⟨p, hp⟩ := simple_has_interval a (hsimple e he)
    obtain ⟨e2, he2, hint2⟩ := simple_translate_interval a t (hsimple e he) hp
    refine ⟨p, hp, ?_⟩
    rw [he2]
    exact hint2
  apply extents_eq_of_bounds
  · intro q hq
    rw [List.mem_filterMap] at hq
    obtain ⟨e3, he3, hei⟩ := hq
    rw [List.mem_map] at he3
    obtain ⟨e, he, heq⟩ := he3
    obtain ⟨p, hp, hq0⟩ := hper e he
    obtain ⟨hb1, hb2⟩ := extents_mem_bounds hext e he p hp
    rw [← heq, hq0, Option.some.injEq] at hei
    rw [← hei]
    constructor
    · show L + t ≤ p.1 + t
      linarith
    · show p.2 + t ≤ H + t
      linarith
  · obtain ⟨e, he, p, hp, hp1⟩ := extents_min_attained hext
    obtain ⟨p0, hp0, hq0⟩ := hper e he
    have hpp : p0 = p := by rw [hp] at hp0; exact (Option.some.inj hp0).symm
    refine ⟨(p0.1 + t, p0.2 + t), ?_, ?_⟩
    · rw [List.mem_filterMap]
      refine ⟨(translateEntityQ a t e).getD e, ?_, hq0⟩
      rw [List.mem_map]
      exact ⟨e, he, rfl⟩
    · show p0.1 + t = L + t
      rw [hpp, hp1]
  · obtain ⟨e, he, p, hp, hp2⟩ := extents_max_attained hext
    obtain ⟨p0, hp0, hq0⟩ := hper e he
    have hpp : p0 = p := by rw [hp] at hp0; exact (Option.some.inj hp0).symm
    refine ⟨(p0.1 + t, p0.2 + t), ?_, ?_⟩
    · rw [List.mem_filterMap]
      refine ⟨(translateEntityQ a t e).getD e, ?_, hq0⟩
      rw [List.mem_map]
      exact ⟨e, he, rfl⟩
    · show p0.2 + t = H + t
      rw [hpp, hp2]

theorem noCrack_example (v : ℚ) (h : v = 0 ∨ v = 1 ∨ v = 3/2 ∨ v = 2 ∨ v = 3) :
    NoCrack [⟨0, 1, ZoneType.stretch⟩, ⟨1, 2, ZoneType.fixed⟩, ⟨2, 3, ZoneType.stretch⟩] v := by
  intro z hzm
  rcases List.mem_cons.mp hzm with h2 | hzm
  · subst h2
    rcases h with h | h | h | h | h <;> subst h <;> norm_num [eps9]
  rcases List.mem_cons.mp hzm with h2 | hzm
  · subst h2
    rcases h with h | h | h | h | h <;> subst h <;> norm_num [eps9]
  rcases List.mem_cons.mp hzm with h2 | hzm
  · subst h2
    rcases h with h | h | h | h | h <;> subst h <;> norm_num [eps9]
  · exact absurd hzm (List.not_mem_nil z)

/-- C1 counterexample: on a drawing of two lines around a full-height circle,
stretching to the positive target 1/2 succeeds (the stretch-zone total is 2 >
0), yet the resulting extent on X is 1, not 1/2 — off by 1/2, far beyond 1e-6.
When the target is smaller than the fixed-zone total, the stretch zones'
new lengths go negative, the coordinate map is not monotone, and the fixed
feature (width 1) keeps the extent at least 1. -/
theorem stretch_extent_counterexample :
    (∀ e ∈ exDrawing, SimpleEntity e) ∧
    0 < stretchTotal (getZones 0 3 (fixedIntervalsRaw Axis.X exDrawing)) ∧
    (0:ℚ) < 1/2 ∧
    stretchDrawing exDrawing (1/2) Axis.X Anchor.start = Except.ok
      [Entity.line ⟨0, 0, 0⟩ ⟨0, 0, 0⟩, Entity.circle ⟨1/4, 0, 0⟩ (1/2),
        Entity.line ⟨3/4, 0, 0⟩ ⟨3/4, 0, 0⟩] ∧
    drawingExtents Axis.X
      [Entity.line ⟨0, 0, 0⟩ ⟨0, 0, 0⟩, Entity.circle ⟨1/4, 0, 0⟩ (1/2),
        Entity.line ⟨3/4, 0, 0⟩ ⟨3/4, 0, 0⟩] = some (-(1/4), 3/4) ∧
    eps6 < |(3/4 - -(1/4) : ℚ) - 1/2| := by
  refine ⟨?_, ?_, by norm_num, ?_, ?_, ?_⟩
  · intro e he
    rw [exDrawing] at he
    rcases List.mem_cons.mp he with h | he
    · subst h; trivial
    rcases List.mem_cons.mp he with h | he
    · subst h; norm_num [SimpleEntity]
    rcases List.mem_cons.mp he with h | he
    · subst h; trivial
    · exact absurd he (List.not_mem_nil e)
  · norm_num [getZones, fixedIntervalsRaw, exDrawing, isFixedEntity, List.filter,
      entityInterval, Pt.get, List.filterMap, clipIntervals, sortIntervals,
      List.insertionSort, List.orderedInsert, mergeIntervals, mergeStep, zonesWalk,
      List.foldl, stretchTotal, Zone.length, ZoneType.isStretch]
  · norm_num [stretchDrawing, exDrawing, drawingExtents, entityInterval, Pt.get,
      List.filterMap, fixedIntervalsRaw, isFixedEntity, List.filter, ivUnion, getZones,
      clipIntervals, sortIntervals, List.insertionSort, List.orderedInsert, mergeIntervals,
      mergeStep, zonesWalk, List.foldl, buildMapping, buildSegs, newLen, stretchTotal,
      Zone.length, ZoneType.isStretch, eps9, eps6, applyMapping, mapEntity, mapPt, mapValue,
      mapValueAux, segEval, MappingSegment.length, MappingSegment.length_new, List.getLast?,
      applyAnchorShift, anchorValue, translateEntityQ, translatePt, Pt.set,
      ZoneType.fixed_eq_stretch_false, ZoneType.stretch_eq_fixed_false]
  · norm_num [drawingExtents, entityInterval, Pt.get, List.filterMap, ivUnion]
  · have habs : |(3/4 - -(1/4) : ℚ) - 1/2| = 1/2 := by
      rw [show (3/4 - -(1/4) : ℚ) - 1/2 = 1/2 by norm_num,
        abs_of_nonneg (by norm_num : (0:ℚ) ≤ 1/2)]
    rw [habs]
    norm_num [eps6]

/-- C1 (amended): for a drawing of exactly-bounded entities (lines, points,
circles, straight polylines) whose zone sequence has positive total
stretch-zone length, whose fixed-zone total does not exceed the positive
target (so no new zone length is negative), whose zones are all at least 1e-9
long, and whose entity coordinates avoid the 1e-9 scan cracks at zone ends,
the stretch succeeds and the resulting drawing's extent on the chosen axis
equals target_length exactly (hence within 1e-6).  The spec's unconditional
form is refuted by `stretch_extent_counterexample`. -/
theorem stretch_extent_amended (d : List Entity) (target : ℚ) (a : Axis) (anc : Anchor)
    (lo hi : ℚ)
    (hsimple : ∀ e ∈ d, SimpleEntity e)
    (hext : drawingExtents a d = some (lo, hi))
    (hst : 0 < stretchTotal (getZones lo hi (fixedIntervalsRaw a d)))
    (htpos : 0 < target)
    (hfixtot : fixedTotal (getZones lo hi (fixedIntervalsRaw a d)) ≤ target)
    (hzlen : ∀ z ∈ getZones lo hi (fixedIntervalsRaw a d), eps9 ≤ z.length)
    (hnocrack : ∀ e ∈ d, ∀ v ∈ entityObs a e,
      NoCrack (getZones lo hi (fixedIntervalsRaw a d)) v) :
    ∃ res lo2, stretchDrawing d target a anc = .ok res ∧
      drawingExtents a res = some (lo2, lo2 + target) := by
  have hwf : ∀ e ∈ d, EntityWF e := by
    intro e he
    have hsimp := hsimple e he
    cases e <;> trivial
  have hle : lo ≤ hi := extents_le hwf hext
  set zs := getZones lo hi (fixedIntervalsRaw a d) with hzs
  have hchain : ZonesChain lo zs hi := by
    rw [hzs]
    exact (getZones_spec lo hi (fixedIntervalsRaw a d) hle).1
  have hzne : zs ≠ [] := by
    rw [hzs]
    exact getZones_ne_nil lo hi _
  have hlensum : (zs.map Zone.length).sum = hi - lo := zonesChain_length_sum hchain
  have hfl : 0 ≤ fixedTotal zs := fixedTotal_nonneg zs
  have hsumtot : stretchTotal zs + fixedTotal zs = hi - lo := by
    rw [stretch_fixed_total, hlensum]
  have hlolt : lo < hi := by linarith
  have hdlb : -(stretchTotal zs) ≤ target - (hi - lo) := by linarith
  set m := buildSegs (stretchTotal zs) (target - (hi - lo)) zs lo with hmdef
  have hcond : ¬ (eps9 < |target - (hi - lo)| ∧ stretchTotal zs ≤ 0) :=
    fun hc => absurd hst (not_lt.mpr hc.2)
  have hmok : buildMapping lo hi target zs = .ok m := by
    show (if eps9 < |target - (hi - lo)| ∧ stretchTotal zs ≤ 0
        then Except.error StretchError.noElasticRegion
        else Except.ok (buildSegs (stretchTotal zs) (target - (hi - lo)) zs lo)) = .ok m
    rw [if_neg hcond]
  have holdC : SegsOldChain lo m hi := buildSegs_old_chain _ _ hchain lo
  have hsumt : (zs.map (newLen (stretchTotal zs) (target - (hi - lo)))).sum = target := by
    rw [newLen_sum _ _ hst, hlensum, div_self (ne_of_gt hst), mul_one]
    ring
  have hnewC : SegsNewChain lo m (lo + target) := by
    have h := buildSegs_new_chain (stretchTotal zs) (target - (hi - lo)) zs lo
    rw [hsumt] at h
    exact h
  have hnnC : ∀ s ∈ m, 0 ≤ s.end_new - s.start_new :=
    buildSegs_nonneg _ _ hst hdlb zs lo
  have hlenC : ∀ s ∈ m, eps9 ≤ s.end_old - s.start_old :=
    buildSegs_lens _ _ zs hzlen lo
  have hfxC : ∀ s ∈ m, s.zone_type = ZoneType.fixed →
      s.end_new - s.start_new = s.end_old - s.start_old :=
    buildSegs_fixed_eq _ _ zs hzlen lo
  have hneC : m ≠ [] := buildSegs_ne_nil _ _ zs lo hzne
  have hncC : ∀ e ∈ d, ∀ v ∈ entityObs a e, ∀ s ∈ m,
      ¬ (s.end_old < v ∧ v ≤ s.end_old + eps9) := by
    intro e he v hv s hsm
    obtain ⟨z, hz, _, h2, _, _⟩ :=
      buildSegs_mem (stretchTotal zs) (target - (hi - lo)) zs lo s hsm
    rw [h2]
    exact hnocrack e he v hv z hz
  have hcovC : ∀ e ∈ d, ∀ c r, e = Entity.circle c r → 0 < r →
      ∃ s ∈ m, s.zone_type = ZoneType.fixed ∧ s.start_old ≤ c.get a - r ∧
        c.get a + r ≤ s.end_old := by
    intro e he c r hecr hrpos
    have hiraw : (c.get a - r, c.get a + r) ∈ fixedIntervalsRaw a d := by
      rw [fixedIntervalsRaw, List.mem_filterMap]
      refine ⟨e, ?_, ?_⟩
      · rw [List.mem_filter]
        exact ⟨he, by rw [hecr]; rfl⟩
      · rw [hecr]; rfl
    have hbnd := extents_mem_bounds hext e he (c.get a - r, c.get a + r) (by rw [hecr]; rfl)
    have hclip : (c.get a - r, c.get a + r) ∈ clipIntervals lo hi (fixedIntervalsRaw a d) := by
      rw [clipIntervals, List.mem_filter]
      constructor
      · rw [List.mem_map]
        refine ⟨(c.get a - r, c.get a + r), hiraw, ?_⟩
        show (max lo (c.get a - r), min hi (c.get a + r)) = (c.get a - r, c.get a + r)
        rw [max_eq_right hbnd.1, min_eq_right hbnd.2]
      · exact decide_eq_true (show (c.get a - r : ℚ) < c.get a + r by linarith)
    obtain ⟨z, hz, hzfix, hz1, hz2⟩ :=
      (getZones_spec lo hi (fixedIntervalsRaw a d) hle).2.2.1
        (c.get a - r, c.get a + r) hclip
    obtain ⟨s, hsm, hs1, hs2, hs3, _⟩ :=
      buildSegs_mem_rev (stretchTotal zs) (target - (hi - lo)) zs lo z hz
    refine ⟨s, hsm, ?_, ?_, ?_⟩
    · rw [hs3, hzfix]
    · rw [hs1]; exact hz1
    · rw [hs2]; exact hz2
  have hmext : drawingExtents a (applyMapping m a d) = some (lo, lo + target) :=
    mapped_extents a d lo hi target m hsimple hext holdC hnewC hnnC hlenC hfxC hneC hncC hcovC
  have hsimple2 : ∀ e2 ∈ applyMapping m a d, SimpleEntity e2 := by
    intro e2 he2
    rw [applyMapping, List.mem_map] at he2
    obtain ⟨e, he, heq⟩ := he2
    rw [← heq]
    exact mapEntity_simple m a e (hsimple e he)
  have hsd : stretchDrawing d target a anc =
      (if hi - lo = 0 then Except.error StretchError.degenerateAxis
       else if hi - lo = target then Except.ok d
       else match buildMapping lo hi target zs with
         | Except.error err => Except.error err
         | Except.ok m2 => Except.ok (applyAnchorShift m2 a anc lo hi (applyMapping m2 a d))) := by
    rw [stretchDrawing, hext]
  have hne0 : ¬ (hi - lo = 0) := by intro hc; linarith
  by_cases heqt : hi - lo = target
  · refine ⟨d, lo, ?_, ?_⟩
    · rw [hsd, if_neg hne0, if_pos heqt]
    · rw [hext, show hi = lo + target from by linarith]
  · have hres : stretchDrawing d target a anc =
        Except.ok (applyAnchorShift m a anc lo hi (applyMapping m a d)) := by
      rw [hsd, if_neg hne0, if_neg heqt, hmok]
    have hshift : ∀ dd : List Entity, applyAnchorShift m a anc lo hi dd =
        if |anchorValue lo hi anc - mapValue m (anchorValue lo hi anc)| < eps6 then dd
        else dd.map (fun e => (translateEntityQ a
          (anchorValue lo hi anc - mapValue m (anchorValue lo hi anc)) e).getD e) :=
      fun dd => rfl
    rcases lt_or_ge |anchorValue lo hi anc - mapValue m (anchorValue lo hi anc)| eps6
      with hshlt | hshge
    · refine ⟨applyMapping m a d, lo, ?_, hmext⟩
      rw [hres, hshift, if_pos hshlt]
    · refine ⟨(applyMapping m a d).map (fun e => (translateEntityQ a
          (anchorValue lo hi anc - mapValue m (anchorValue lo hi anc)) e).getD e),
        lo + (anchorValue lo hi anc - mapValue m (anchorValue lo hi anc)), ?_, ?_⟩
      · rw [hres, hshift, if_neg (not_lt.mpr hshge)]
      · have htr := translated_extents a
          (anchorValue lo hi anc - mapValue m (anchorValue lo hi anc))
          (applyMapping m a d) lo (lo + target) hsimple2 hmext
        rw [htr]
        congr 1
        rw [Prod.mk.injEq]
        exact ⟨rfl, by ring⟩

/-- Witness for C1 (amended) at `exDrawing` stretched on X to target 5. -/
theorem stretch_extent_amended_witness :
    ∃ res lo2, stretchDrawing exDrawing 5 Axis.X Anchor.start = .ok res ∧
      drawingExtents Axis.X res = some (lo2, lo2 + 5) :=
  stretch_extent_amended exDrawing 5 Axis.X Anchor.start 0 3
    (by
      intro e he
      rw [exDrawing] at he
      rcases List.mem_cons.mp he with h | he
      · subst h; trivial
      rcases List.mem_cons.mp he with h | he
      · subst h; norm_num [SimpleEntity]
      rcases List.mem_cons.mp he with h | he
      · subst h; trivial
      · exact absurd he (List.not_mem_nil e))
    (by norm_num [drawingExtents, exDrawing, entityInterval, Pt.get, List.filterMap, ivUnion])
    (by norm_num [getZones, fixedIntervalsRaw, exDrawing, isFixedEntity, List.filter,
      entityInterval, Pt.get, List.filterMap, clipIntervals, sortIntervals,
      List.insertionSort, List.orderedInsert, mergeIntervals, mergeStep, zonesWalk,
      List.foldl, stretchTotal, Zone.length, ZoneType.isStretch])
    (by norm_num)
    (by norm_num [getZones, fixedIntervalsRaw, exDrawing, isFixedEntity, List.filter,
      entityInterval, Pt.get, List.filterMap, clipIntervals, sortIntervals,
      List.insertionSort, List.orderedInsert, mergeIntervals, mergeStep, zonesWalk,
      List.foldl, fixedTotal, Zone.length, ZoneType.isFixed])
    (by
      have hz : getZones 0 3 (fixedIntervalsRaw Axis.X exDrawing) =
          [⟨0, 1, ZoneType.stretch⟩, ⟨1, 2, ZoneType.fixed⟩, ⟨2, 3, ZoneType.stretch⟩] := by
        norm_num [getZones, fixedIntervalsRaw, exDrawing, isFixedEntity, List.filter,
          entityInterval, Pt.get, List.filterMap, clipIntervals, sortIntervals,
          List.insertionSort, List.orderedInsert, mergeIntervals, mergeStep, zonesWalk,
          List.foldl]
      rw [hz]
      intro z hzm
      rcases List.mem_cons.mp hzm with h | hzm
      · subst h; norm_num [Zone.length, eps9]
      rcases List.mem_cons.mp hzm with h | hzm
      · subst h; norm_num [Zone.length, eps9]
      rcases List.mem_cons.mp hzm with h | hzm
      · subst h; norm_num [Zone.length, eps9]
      · exact absurd hzm (List.not_mem_nil z))
    (by
      have hz : getZones 0 3 (fixedIntervalsRaw Axis.X exDrawing) =
          [⟨0, 1, ZoneType.stretch⟩, ⟨1, 2, ZoneType.fixed⟩, ⟨2, 3, ZoneType.stretch⟩] := by
        norm_num [getZones, fixedIntervalsRaw, exDrawing, isFixedEntity, List.filter,
          entityInterval, Pt.get, List.filterMap, clipIntervals, sortIntervals,
          List.insertionSort, List.orderedInsert, mergeIntervals, mergeStep, zonesWalk,
          List.foldl]
      rw [hz]
      intro e he v hv
      rw [exDrawing] at he
      apply noCrack_example
      rcases List.mem_cons.mp he with h | he
      · subst h
        simp only [entityObs, Pt.get, List.mem_cons, List.not_mem_nil, or_false] at hv
        rcases hv with hv | hv <;> subst hv <;> norm_num
      rcases List.mem_cons.mp he with h | he
      · subst h
        simp only [entityObs, Pt.get, List.mem_cons, List.not_mem_nil, or_false] at hv
        subst hv
        norm_num
      rcases List.mem_cons.mp he with h | he
      · subst h
        simp only [entityObs, Pt.get, List.mem_cons, List.not_mem_nil, or_false] at hv
        rcases hv with hv | hv <;> subst hv <;> norm_num
      · exact absurd he (List.not_mem_nil e))

end DxfStretcher
